import Mathlib

/-!
Kokkos execution policies: `PolicyTraits`, `RangePolicy`, `RangePolicy::WorkRange`,
`TeamScratchRequest` and the nested range boundaries.

Shallow embedding of `core/src/Kokkos_ExecPolicy.hpp` and of `ViewHooks` in
`core/src/Kokkos_ViewHooks.hpp`.

The arithmetic of `RangePolicy`, `WorkRange` and `TeamThreadRangeBoundariesStruct`
is embedded twice.

* Over unbounded integers: `member_type` (the policy's iteration type) and
  `iType` are `Int`, and so are `part_rank`, `part_size`, `concurrency` (C++
  `int`) and `ChunkSize::chunk_size` (C++ `long`); no operation overflows and
  no conversion changes a value.  These are the definitions in the namespaces
  `RangePolicy`, `WorkRange` and `TeamThreadRangeBoundariesStruct`.
* In a fixed-width integral type `T` (`IntegralType`: a width and a
  signedness): the definitions of the namespace `Fixed`, in which every
  arithmetic result and every conversion is reduced into the range of `T`.

Further conventions.

* `size_t` is unsigned: its values are naturals below `2 ^ bits` and its
  arithmetic is taken modulo `2 ^ bits`.
* C++ `/` is truncating division (`Int.tdiv`); a division by zero is undefined
  in C++ and is modelled as the failure `none`.
* C++ `&` and `~` on two's complement integers are `Int.land` and `~~~`.
* The `while` loops of `set_chunk_size` are modelled with a fuel argument;
  running out of fuel is `none`.
* Template arguments are values of `CxxType`; a failed `static_assert` is the
  failure `none`.
-/

namespace Kokkos

/-- C++ integer division: truncating, undefined (here `none`) for a zero divisor. -/
def cdiv (a b : Int) : Option Int :=
  if b = 0 then none else some (Int.tdiv a b)

/-- The struct `ChunkSize`: one `long` field. -/
structure ChunkSize where
  chunk_size : Int
  deriving DecidableEq, Repr

/-- The constructor `ChunkSize(const long& value)`. -/
def ChunkSize.ofValue (value : Int) : ChunkSize := ⟨value⟩

/-- The constructor `ChunkSize(const Kokkos::AUTO_t&)`. -/
def ChunkSize.ofAuto : ChunkSize := ⟨-1⟩

/-- The data members of `RangePolicy`; `Space` is `traits::execution_space`. -/
structure RangePolicy (Space : Type) where
  m_space : Space
  m_begin : Int
  m_end : Int
  m_granularity : Int
  m_granularity_mask : Int
  deriving DecidableEq, Repr

namespace RangePolicy

variable {Space : Type}

/-- The enum constant `Granularity = 8`. -/
def Granularity : Int := 8

/-- The accessor `begin()`. -/
def «begin» (p : RangePolicy Space) : Int := p.m_begin

/-- The accessor `end()`. -/
def «end» (p : RangePolicy Space) : Int := p.m_end

/-- The accessor `chunk_size()`. -/
def chunk_size (p : RangePolicy Space) : Int := p.m_granularity

/-- The constructor `RangePolicy(work_begin, work_end)`; `m_space()` is the
default-constructed execution space. -/
def ofRange [Inhabited Space] (work_begin work_end : Int) : RangePolicy Space :=
  { m_space := default
    m_begin := if work_begin < work_end then work_begin else 0
    m_end := if work_begin < work_end then work_end else 0
    m_granularity := Granularity
    m_granularity_mask := Granularity - 1 }

/-- The constructor `RangePolicy(work_space, work_begin, work_end)`. -/
def ofSpaceRange (work_space : Space) (work_begin work_end : Int) : RangePolicy Space :=
  { m_space := work_space
    m_begin := if work_begin < work_end then work_begin else 0
    m_end := if work_begin < work_end then work_end else 0
    m_granularity := Granularity
    m_granularity_mask := Granularity - 1 }

/-- The constructor `RangePolicy(work_begin, work_end, chunk)` over unbounded
integers: the conversion of `chunk.chunk_size` to `member_type` keeps the
value.  `Fixed.ofRangeChunk` is the constructor for a fixed-width type. -/
def ofRangeChunk [Inhabited Space] (work_begin work_end : Int) (chunk : ChunkSize) :
    RangePolicy Space :=
  { m_space := default
    m_begin := if work_begin < work_end then work_begin else 0
    m_end := if work_begin < work_end then work_end else 0
    m_granularity := chunk.chunk_size
    m_granularity_mask := chunk.chunk_size - 1 }

/-- The constructor `RangePolicy(work_space, work_begin, work_end, chunk)` over
unbounded integers.  `Fixed.ofSpaceRangeChunk` is the constructor for a
fixed-width type. -/
def ofSpaceRangeChunk (work_space : Space) (work_begin work_end : Int) (chunk : ChunkSize) :
    RangePolicy Space :=
  { m_space := work_space
    m_begin := if work_begin < work_end then work_begin else 0
    m_end := if work_begin < work_end then work_end else 0
    m_granularity := chunk.chunk_size
    m_granularity_mask := chunk.chunk_size - 1 }

/-- The first loop of `set_chunk_size` over unbounded integers:
`while(new_chunk_size*100*concurrency < m_end-m_begin) new_chunk_size *= 2;`
with `len = m_end-m_begin`.  `Fixed.loop100` is the loop in a fixed-width type. -/
def loop100 : Nat → Int → Int → Int → Option Int
  | 0, _, _, _ => none
  | fuel + 1, concurrency, len, new_chunk_size =>
    if new_chunk_size * 100 * concurrency < len then
      loop100 fuel concurrency len (new_chunk_size * 2)
    else some new_chunk_size

/-- The second loop of `set_chunk_size` over unbounded integers:
`while((new_chunk_size*40*concurrency < m_end-m_begin) && (new_chunk_size<128)) new_chunk_size*=2;`
with `len = m_end-m_begin`.  `Fixed.loop40` is the loop in a fixed-width type. -/
def loop40 : Nat → Int → Int → Int → Option Int
  | 0, _, _, _ => none
  | fuel + 1, concurrency, len, new_chunk_size =>
    if new_chunk_size * 40 * concurrency < len ∧ new_chunk_size < 128 then
      loop40 fuel concurrency len (new_chunk_size * 2)
    else some new_chunk_size

/-- The value of `new_chunk_size` at the end of `set_chunk_size` when the
granularity is not yet fixed. -/
def auto_chunk_size (fuel : Nat) (concurrency len : Int) : Option Int :=
  match loop100 fuel concurrency len 1 with
  | none => none
  | some new_chunk_size =>
    if new_chunk_size < 128 then loop40 fuel concurrency len 1
    else some new_chunk_size

/-- The member function `set_chunk_size(concurrency)`.  It updates `*this` and
returns a copy of it; the result is both the updated policy and the returned
one. -/
def set_chunk_size (fuel : Nat) (p : RangePolicy Space) (concurrency : Int) :
    Option (RangePolicy Space) :=
  if p.m_granularity > 0 then some p
  else
    match auto_chunk_size fuel concurrency (p.m_end - p.m_begin) with
    | none => none
    | some new_chunk_size =>
      some { p with m_granularity := new_chunk_size
                    m_granularity_mask := new_chunk_size - 1 }

end RangePolicy

/-- The data members of `RangePolicy::WorkRange`. -/
structure WorkRange where
  m_begin : Int
  m_end : Int
  deriving DecidableEq, Repr

namespace WorkRange

variable {Space : Type}

/-- The accessor `begin()`. -/
def «begin» (w : WorkRange) : Int := w.m_begin

/-- The accessor `end()`. -/
def «end» (w : WorkRange) : Int := w.m_end

/-- The local `work_part` of the `WorkRange` constructor over unbounded integers
(`Fixed.work_part` is the same local in a fixed-width type):
`((((range.end() - range.begin()) + (part_size - 1)) / part_size)
   + range.m_granularity_mask) & ~member_type(range.m_granularity_mask)`. -/
def work_part (range : RangePolicy Space) (part_size : Int) : Option Int :=
  match cdiv ((range.end - range.begin) + (part_size - 1)) part_size with
  | none => none
  | some q => some (Int.land (q + range.m_granularity_mask) (~~~ range.m_granularity_mask))

/-- The constructor `WorkRange(range, part_rank, part_size)` over unbounded
integers.  `Fixed.ofPolicy` is the constructor for a fixed-width type. -/
def ofPolicy (range : RangePolicy Space) (part_rank part_size : Int) : Option WorkRange :=
  if part_size ≠ 0 then
    match work_part range part_size with
    | none => none
    | some work_part =>
      let b := range.begin + work_part * part_rank
      let e := b + work_part
      let b := if range.end < b then range.end else b
      let e := if range.end < e then range.end else e
      some ⟨b, e⟩
  else some ⟨0, 0⟩

end WorkRange


/-! ## Specification vocabulary and example inputs -/

/-- In the words of the specification: `x` is the least power of two that
satisfies `P`. -/
def IsLeastPow2 (P : Int → Prop) (x : Int) : Prop :=
  (∃ n : Nat, x = 2 ^ n) ∧ P x ∧ ∀ n : Nat, P (2 ^ n) → x ≤ 2 ^ n

/-- In the words of the specification: the range a constructor called with
`(work_begin, work_end)` must store. -/
def NormalizedRange {Space : Type} (work_begin work_end : Int) (p : RangePolicy Space) : Prop :=
  (work_begin ≥ work_end → p.begin = 0 ∧ p.end = 0) ∧
  (work_begin < work_end → p.begin = work_begin ∧ p.end = work_end) ∧
  p.begin ≤ p.end

/-- In the words of the specification: the chunk size chosen from the result
`c1` of the 100x search and the result `k` of the 40x search. -/
def autoChunkOf (c1 k : Int) : Int :=
  if 128 ≤ c1 then c1 else min 128 k

/-- The policy `RangePolicy<>(0, 100)`: default granularity 8. -/
def policy100 : RangePolicy Unit := RangePolicy.ofRange 0 100

/-- The policy `RangePolicy<>(0, 10, ChunkSize(3))`. -/
def policyChunk3 : RangePolicy Unit := RangePolicy.ofRangeChunk 0 10 (ChunkSize.ofValue 3)

/-- The policy `RangePolicy<>(0, 10000, ChunkSize(AUTO))`. -/
def policyAuto : RangePolicy Unit := RangePolicy.ofRangeChunk 0 10000 ChunkSize.ofAuto

/-- The part of a team member handle (`TeamMemberType`) that the range
generators read: `team_rank()` and `team_size()`. -/
structure TeamMember where
  team_rank : Int
  team_size : Int
  deriving DecidableEq, Repr

/-- The data members of `Impl::TeamThreadRangeBoundariesStruct`. -/
structure TeamThreadRangeBoundariesStruct where
  start : Int
  «end» : Int
  thread : TeamMember
  deriving DecidableEq, Repr

namespace TeamThreadRangeBoundariesStruct

/-- The enum constant `increment = 1`. -/
def increment : Int := 1

/-- The static member `ibegin(arg_begin, arg_end, arg_rank, arg_size)` over
unbounded integers.  `Fixed.ibegin` is the member for a fixed-width type. -/
def ibegin (arg_begin arg_end arg_rank arg_size : Int) : Option Int :=
  match cdiv (arg_end - arg_begin + arg_size - 1) arg_size with
  | none => none
  | some q => some (arg_begin + q * arg_rank)

/-- The static member `iend(arg_begin, arg_end, arg_rank, arg_size)` over
unbounded integers.  `Fixed.iend` is the member for a fixed-width type. -/
def iend (arg_begin arg_end arg_rank arg_size : Int) : Option Int :=
  match cdiv (arg_end - arg_begin + arg_size - 1) arg_size with
  | none => none
  | some q =>
    let end_ := arg_begin + q * (arg_rank + 1)
    some (if end_ < arg_end then end_ else arg_end)

/-- The constructor `TeamThreadRangeBoundariesStruct(arg_thread, arg_end)`. -/
def ofCount (arg_thread : TeamMember) (arg_end : Int) :
    Option TeamThreadRangeBoundariesStruct :=
  match ibegin 0 arg_end arg_thread.team_rank arg_thread.team_size,
        iend 0 arg_end arg_thread.team_rank arg_thread.team_size with
  | some s, some e => some ⟨s, e, arg_thread⟩
  | _, _ => none

/-- The constructor `TeamThreadRangeBoundariesStruct(arg_thread, arg_begin, arg_end)`. -/
def ofBeginEnd (arg_thread : TeamMember) (arg_begin arg_end : Int) :
    Option TeamThreadRangeBoundariesStruct :=
  match ibegin arg_begin arg_end arg_thread.team_rank arg_thread.team_size,
        iend arg_begin arg_end arg_thread.team_rank arg_thread.team_size with
  | some s, some e => some ⟨s, e, arg_thread⟩
  | _, _ => none

end TeamThreadRangeBoundariesStruct

/-- The data member of `Impl::ThreadVectorRangeBoundariesStruct`. -/
structure ThreadVectorRangeBoundariesStruct where
  «end» : Int
  deriving DecidableEq, Repr

namespace ThreadVectorRangeBoundariesStruct

/-- The enum constant `start = 0`. -/
def start (_ : ThreadVectorRangeBoundariesStruct) : Int := 0

/-- The enum constant `increment = 1`. -/
def increment (_ : ThreadVectorRangeBoundariesStruct) : Int := 1

/-- The constructor `ThreadVectorRangeBoundariesStruct(thread, count)`. -/
def ofCount (_thread : TeamMember) (count : Int) : ThreadVectorRangeBoundariesStruct :=
  ⟨count⟩

end ThreadVectorRangeBoundariesStruct

/-- The data members of `Experimental::TeamScratchRequest`; both are `size_t`. -/
structure TeamScratchRequest where
  m_per_team : Nat
  m_per_thread : Nat
  deriving DecidableEq, Repr

namespace TeamScratchRequest

/-- The constructor `TeamScratchRequest(per_team_, per_thread_)`. -/
def ofPerTeamPerThread (per_team_ per_thread_ : Nat) : TeamScratchRequest :=
  ⟨per_team_, per_thread_⟩

/-- The constructor `TeamScratchRequest(per_team_)`, with the default
argument `per_thread_ = 0`. -/
def ofPerTeam (per_team_ : Nat) : TeamScratchRequest :=
  ofPerTeamPerThread per_team_ 0

/-- The accessor `per_team()`. -/
def per_team (r : TeamScratchRequest) : Nat := r.m_per_team

/-- The accessor `per_thread()`. -/
def per_thread (r : TeamScratchRequest) : Nat := r.m_per_thread

/-- The member `total(team_size)`: `m_per_team + m_per_thread * team_size` in
`size_t` arithmetic, which is arithmetic modulo `2 ^ bits` for a `size_t` of
`bits` bits. -/
def total (bits : Nat) (r : TeamScratchRequest) (team_size : Nat) : Nat :=
  (r.m_per_team + (r.m_per_thread * team_size) % 2 ^ bits) % 2 ^ bits

end TeamScratchRequest

/-- Modelled from the spec: `TeamPolicy::member_type::team_scan(value)` is only
declared in this header (the backends define it).  The team is the list of
the values contributed by ranks `0, 1, ...`; the result is the list of the
values returned to those ranks, computed by one pass that hands each rank the
running sum before adding that rank's value ("exclusive prefix sum of `value`
over thread ranks `0..rank-1`, ordered strictly by `team_rank()`"). -/
def team_scan_from (acc : Int) : List Int → List Int
  | [] => []
  | value :: rest => acc :: team_scan_from (acc + value) rest

/-- Modelled from the spec: `team_scan` for a whole team, starting from 0. -/
def team_scan (values : List Int) : List Int := team_scan_from 0 values

/-! ## Policy traits

Template arguments are modelled by `CxxType`, the C++ types other than `void`
as far as the trait predicates tell them apart; a member typedef that is
`void` is `none`.  A failed `static_assert`, or a template argument list no
single partial specialization accepts, makes the resolution fail (`none`). -/

/-- A C++ type other than `void`: an execution space, the structs `Static`
and `Dynamic`, an instance of the templates `Schedule` and `IterationType`,
a fundamental integral type, or any other type. -/
inductive CxxType where
  | space (id : Nat)
  | Static
  | Dynamic
  | Schedule (ScheduleType : CxxType)
  | IterationType (iType : CxxType)
  | integral (id : Nat)
  | other (id : Nat)
  deriving DecidableEq, Repr

/-- The trait `is_schedule_type<Arg>`: 1 exactly on `Schedule<ScheduleType>`. -/
def is_schedule_type : CxxType → Bool
  | .Schedule _ => true
  | _ => false

/-- The trait `is_iteration_type<Arg>`: 1 exactly on `IterationType<iType>`. -/
def is_iteration_type : CxxType → Bool
  | .IterationType _ => true
  | _ => false

/-- Modelled from the spec: `Impl::is_execution_space` is defined outside this
header; it holds exactly of the execution-space types ("is-an-execution-space"). -/
def is_execution_space : CxxType → Bool
  | .space _ => true
  | _ => false

/-- Modelled from the spec: `std::is_integral` belongs to the C++ standard
library; it holds exactly of the fundamental integral types ("bare integral
types"). -/
def is_integral : CxxType → Bool
  | .integral _ => true
  | _ => false

/-- The member typedefs of `PolicyTraits<void, Props...>`; `none` is `void`. -/
structure PolicyTraitsVoid where
  execution_space : Option CxxType
  schedule_type : Option CxxType
  iteration_type : Option CxxType
  tag_type : Option CxxType
  deriving DecidableEq, Repr

/-- The five partial specializations `PolicyTraits<void, Arg, Props...>`, named
by their comments in the source: "Strip off ExecutionSpace", "ScheduleType",
"IterationType", "raw IterationType", "TagType". -/
inductive StripOff where
  | ExecutionSpace
  | ScheduleType
  | IterationType
  | RawIterationType
  | TagType
  deriving DecidableEq, Repr

namespace StripOff

/-- All partial specializations, in source order. -/
def all : List StripOff :=
  [ExecutionSpace, ScheduleType, IterationType, RawIterationType, TagType]

/-- Whether the specialization accepts `Arg` as the head of the argument
list: its argument pattern together with its `std::enable_if` condition. -/
def applies : StripOff → CxxType → Bool
  | ExecutionSpace, Arg => is_execution_space Arg
  | ScheduleType, .Schedule S => is_schedule_type (.Schedule S)
  | ScheduleType, _ => false
  | IterationType, .IterationType _ => true
  | IterationType, _ => false
  | RawIterationType, Arg => is_integral Arg
  | TagType, Arg =>
    !is_schedule_type Arg && !is_execution_space Arg && !is_iteration_type Arg &&
      !is_integral Arg

/-- The body of the specialization for head `Arg`, given the members `inner`
of `PolicyTraits<void, Props...>`: the `static_assert` that its slot is still
`void`, then the typedefs. -/
def members : StripOff → CxxType → PolicyTraitsVoid → Option PolicyTraitsVoid
  | ExecutionSpace, Arg, inner =>
    if inner.execution_space = none then some { inner with execution_space := some Arg }
    else none
  | ScheduleType, .Schedule S, inner =>
    if inner.schedule_type = none then some { inner with schedule_type := some S }
    else none
  | ScheduleType, _, _ => none
  | IterationType, .IterationType iType, inner =>
    if inner.iteration_type = none then some { inner with iteration_type := some iType }
    else none
  | IterationType, _, _ => none
  | RawIterationType, iType, inner =>
    if inner.iteration_type = none then some { inner with iteration_type := some iType }
    else none
  | TagType, Arg, inner =>
    if inner.tag_type = none then some { inner with tag_type := some Arg }
    else none

/-- Template instantiation picks the one specialization that accepts `Arg`;
with none or with several accepting it there is no resolution. -/
def select (Arg : CxxType) : Option StripOff :=
  match all.filter (fun s => s.applies Arg) with
  | [s] => some s
  | _ => none

end StripOff

/-- The class `PolicyTraits<void, Props...>`: `PolicyTraits<void>` for the empty
list, otherwise the selected specialization applied to the head and to the
members of `PolicyTraits<void, Props...>` for the tail. -/
def PolicyTraitsVoid.resolve : List CxxType → Option PolicyTraitsVoid
  | [] => some ⟨none, none, none, none⟩
  | Arg :: Props =>
    match PolicyTraitsVoid.resolve Props with
    | none => none
    | some inner =>
      match StripOff.select Arg with
      | none => none
      | some s => s.members Arg inner

/-- The member typedefs of the primary template `PolicyTraits<Props...>`;
`work_tag = none` is `void`. -/
structure PolicyTraits where
  execution_space : CxxType
  schedule_type : CxxType
  iteration_type : CxxType
  work_tag : Option CxxType
  deriving DecidableEq, Repr

/-- The primary template `PolicyTraits<Props...>`.  `DefaultExecutionSpace` is
`Kokkos::DefaultExecutionSpace` and `size_type` maps an execution space to its
member `size_type`; both are declared outside this header. -/
def PolicyTraits.resolve (DefaultExecutionSpace : CxxType) (size_type : CxxType → CxxType)
    (Props : List CxxType) : Option PolicyTraits :=
  match PolicyTraitsVoid.resolve Props with
  | none => none
  | some t =>
    let execution_space :=
      match t.execution_space with
      | none => DefaultExecutionSpace
      | some s => s
    some
      { execution_space := execution_space
        schedule_type :=
          match t.schedule_type with
          | none => CxxType.Static
          | some s => s
        iteration_type :=
          match t.iteration_type with
          | none => size_type execution_space
          | some i => i
        work_tag := t.tag_type }

/-- In the words of the specification: the four categories of configuration
items. -/
inductive Category where
  | ExecutionSpace
  | Schedule
  | IterationType
  | WorkTag
  deriving DecidableEq, Repr

/-- In the words of the specification: an item is an execution space, a
schedule selector, an iteration-type selector (bare integral types included),
and otherwise a work tag. -/
def category (x : CxxType) : Category :=
  if is_execution_space x then Category.ExecutionSpace
  else if is_schedule_type x then Category.Schedule
  else if is_iteration_type x || is_integral x then Category.IterationType
  else Category.WorkTag

/-- In the words of the specification: the value an item supplies for its
category: the schedule of `Schedule<S>`, the type of `IterationType<T>`, and
otherwise the item itself. -/
def suppliedValue : CxxType → CxxType
  | .Schedule ScheduleType => ScheduleType
  | .IterationType iType => iType
  | x => x

/-- In the words of the specification: what a configuration list supplies for
a category: the value of its (first) item of that category, if any. -/
def supplied (c : Category) (props : List CxxType) : Option CxxType :=
  (props.find? (fun x => decide (category x = c))).map suppliedValue

/-- The slot of a category among the members of `PolicyTraits<void, Props...>`. -/
def PolicyTraitsVoid.slot (t : PolicyTraitsVoid) : Category → Option CxxType
  | .ExecutionSpace => t.execution_space
  | .Schedule => t.schedule_type
  | .IterationType => t.iteration_type
  | .WorkTag => t.tag_type

/-- The members with the slot of a category set to a type. -/
def PolicyTraitsVoid.setSlot (t : PolicyTraitsVoid) (c : Category) (v : CxxType) :
    PolicyTraitsVoid :=
  match c with
  | .ExecutionSpace => { t with execution_space := some v }
  | .Schedule => { t with schedule_type := some v }
  | .IterationType => { t with iteration_type := some v }
  | .WorkTag => { t with tag_type := some v }

/-! ## View hooks (`Kokkos_ViewHooks.hpp`)

The static members `s_callback` and `s_const_callback` are an explicit state;
a `std::function` is `Option Callback`, `none` being the empty function.  A
call of a callback is recorded as an `Invocation`; `call` returns the list of
the invocations it performs, in order. -/

/-- A `View<DataType, Properties...>` as far as the hooks read it: whether its
`value_type` is const, and a number that tells views apart. -/
structure View where
  value_type_is_const : Bool
  id : Nat
  deriving DecidableEq, Repr

/-- The class `ViewHolder<View>`: it holds the address of the view. -/
structure ViewHolder where
  m_view : View
  deriving DecidableEq, Repr

/-- One call `callback(holder)` of a stored callback. -/
structure Invocation (Callback : Type) where
  callback : Callback
  holder : ViewHolder
  deriving DecidableEq, Repr

/-- The static data members of `ViewHooks`. -/
structure ViewHooks (Callback : Type) where
  s_callback : Option Callback
  s_const_callback : Option Callback
  deriving DecidableEq, Repr

namespace ViewHooks

variable {Callback : Type}

/-- The member `set(fun, const_fun)`: both members are assigned. -/
def set (_hooks : ViewHooks Callback) (fun_ const_fun : Option Callback) :
    ViewHooks Callback :=
  { s_callback := fun_, s_const_callback := const_fun }

/-- The member `clear()`: both members become the empty `callback_type{}`. -/
def clear (_hooks : ViewHooks Callback) : ViewHooks Callback :=
  { s_callback := none, s_const_callback := none }

/-- The member `is_set()`. -/
def is_set (hooks : ViewHooks Callback) : Bool :=
  hooks.s_callback.isSome || hooks.s_const_callback.isSome

/-- The overload of `do_call` enabled for a non-const `value_type`:
`if (s_callback) s_callback(view);`. -/
def do_call (hooks : ViewHooks Callback) (view : ViewHolder) : List (Invocation Callback) :=
  match hooks.s_callback with
  | some f => [⟨f, view⟩]
  | none => []

/-- The overload of `do_call` enabled for a const `value_type`:
`if (s_const_callback) s_const_callback(view);`. -/
def do_call_const (hooks : ViewHooks Callback) (view : ViewHolder) :
    List (Invocation Callback) :=
  match hooks.s_const_callback with
  | some f => [⟨f, view⟩]
  | none => []

/-- The member `call(view)`: it wraps the view in a holder and calls the
overload of `do_call` that `std::is_const<value_type>` selects. -/
def call (hooks : ViewHooks Callback) (view : View) : List (Invocation Callback) :=
  let holder : ViewHolder := ⟨view⟩
  if view.value_type_is_const then do_call_const hooks holder else do_call hooks holder

end ViewHooks

/-- An integral type of the C++ implementation: its width in bits and whether
it is signed. -/
structure IntegralType where
  bits : Nat
  isSigned : Bool
  deriving DecidableEq, Repr

namespace IntegralType

/-- The number of values of the type, `2 ^ bits`. -/
def modulus (T : IntegralType) : Int := ((2 ^ T.bits : Nat) : Int)

/-- Conversion of an integer to the type: the value modulo `2 ^ bits`, taken in
`[0, 2 ^ bits)` for an unsigned type and in `[-2 ^ (bits-1), 2 ^ (bits-1))` for
a signed one. -/
def convert (T : IntegralType) (x : Int) : Int :=
  if T.isSigned then (x + T.modulus / 2) % T.modulus - T.modulus / 2
  else x % T.modulus

/-- The operator `+` in the type. -/
def add (T : IntegralType) (a b : Int) : Int := T.convert (a + b)

/-- The operator `-` in the type. -/
def sub (T : IntegralType) (a b : Int) : Int := T.convert (a - b)

/-- The operator `*` in the type. -/
def mul (T : IntegralType) (a b : Int) : Int := T.convert (a * b)

/-- The operator `/` in the type: truncating, undefined (here `none`) for a
zero divisor. -/
def div (T : IntegralType) (a b : Int) : Option Int :=
  if b = 0 then none else some (T.convert (Int.tdiv a b))

/-- The operator `~` in the type. -/
def complement (T : IntegralType) (a : Int) : Int := T.convert (~~~ a)

/-- The type `int`, 32 bits. -/
def int : IntegralType := ⟨32, true⟩

/-- The type `unsigned int`, 32 bits. -/
def unsigned_int : IntegralType := ⟨32, false⟩

/-- The type `long`, 64 bits. -/
def long : IntegralType := ⟨64, true⟩

/-- The type `unsigned long`, 64 bits. -/
def unsigned_long : IntegralType := ⟨64, false⟩

end IntegralType

namespace Fixed

variable {Space : Type}

/-- The constructor `RangePolicy(work_begin, work_end)` for the member type `T`. -/
def ofRange [Inhabited Space] (T : IntegralType) (work_begin work_end : Int) :
    RangePolicy Space :=
  { m_space := default
    m_begin := if work_begin < work_end then work_begin else T.convert 0
    m_end := if work_begin < work_end then work_end else T.convert 0
    m_granularity := T.convert RangePolicy.Granularity
    m_granularity_mask := T.sub (T.convert RangePolicy.Granularity) (T.convert 1) }

/-- The constructor `RangePolicy(work_space, work_begin, work_end)` for the
member type `T`. -/
def ofSpaceRange (T : IntegralType) (work_space : Space) (work_begin work_end : Int) :
    RangePolicy Space :=
  { m_space := work_space
    m_begin := if work_begin < work_end then work_begin else T.convert 0
    m_end := if work_begin < work_end then work_end else T.convert 0
    m_granularity := T.convert RangePolicy.Granularity
    m_granularity_mask := T.sub (T.convert RangePolicy.Granularity) (T.convert 1) }

/-- The constructor `RangePolicy(work_begin, work_end, chunk)` for the member
type `T`: `m_granularity = chunk.chunk_size` converts the `long` to `T`. -/
def ofRangeChunk [Inhabited Space] (T : IntegralType) (work_begin work_end : Int)
    (chunk : ChunkSize) : RangePolicy Space :=
  { m_space := default
    m_begin := if work_begin < work_end then work_begin else T.convert 0
    m_end := if work_begin < work_end then work_end else T.convert 0
    m_granularity := T.convert chunk.chunk_size
    m_granularity_mask := T.sub (T.convert chunk.chunk_size) (T.convert 1) }

/-- The constructor `RangePolicy(work_space, work_begin, work_end, chunk)` for
the member type `T`. -/
def ofSpaceRangeChunk (T : IntegralType) (work_space : Space) (work_begin work_end : Int)
    (chunk : ChunkSize) : RangePolicy Space :=
  { m_space := work_space
    m_begin := if work_begin < work_end then work_begin else T.convert 0
    m_end := if work_begin < work_end then work_end else T.convert 0
    m_granularity := T.convert chunk.chunk_size
    m_granularity_mask := T.sub (T.convert chunk.chunk_size) (T.convert 1) }

/-- The first loop of `set_chunk_size` for the member type `T`:
`while(new_chunk_size*100*concurrency < m_end-m_begin) new_chunk_size *= 2;`
with `len = m_end-m_begin`; the `int` operands are converted to `T`. -/
def loop100 (T : IntegralType) : Nat → Int → Int → Int → Option Int
  | 0, _, _, _ => none
  | fuel + 1, concurrency, len, new_chunk_size =>
    if T.mul (T.mul new_chunk_size (T.convert 100)) (T.convert concurrency) < len then
      loop100 T fuel concurrency len (T.mul new_chunk_size (T.convert 2))
    else some new_chunk_size

/-- The second loop of `set_chunk_size` for the member type `T`:
`while((new_chunk_size*40*concurrency < m_end-m_begin) && (new_chunk_size<128)) new_chunk_size*=2;`. -/
def loop40 (T : IntegralType) : Nat → Int → Int → Int → Option Int
  | 0, _, _, _ => none
  | fuel + 1, concurrency, len, new_chunk_size =>
    if T.mul (T.mul new_chunk_size (T.convert 40)) (T.convert concurrency) < len ∧
        new_chunk_size < 128 then
      loop40 T fuel concurrency len (T.mul new_chunk_size (T.convert 2))
    else some new_chunk_size

/-- The value of `new_chunk_size` at the end of `set_chunk_size` for the member
type `T`, when the granularity is not yet fixed. -/
def auto_chunk_size (T : IntegralType) (fuel : Nat) (concurrency len : Int) : Option Int :=
  match loop100 T fuel concurrency len (T.convert 1) with
  | none => none
  | some new_chunk_size =>
    if new_chunk_size < 128 then loop40 T fuel concurrency len (T.convert 1)
    else some new_chunk_size

/-- The member function `set_chunk_size(concurrency)` for the member type `T`. -/
def set_chunk_size (T : IntegralType) (fuel : Nat) (p : RangePolicy Space)
    (concurrency : Int) : Option (RangePolicy Space) :=
  if p.m_granularity > 0 then some p
  else
    match auto_chunk_size T fuel concurrency (T.sub p.m_end p.m_begin) with
    | none => none
    | some new_chunk_size =>
      some { p with m_granularity := new_chunk_size
                    m_granularity_mask := T.sub new_chunk_size (T.convert 1) }

/-- The local `work_part` of the `WorkRange` constructor for the member type
`T`; `part_size - 1` is computed in `int` and converted to `T`. -/
def work_part (T : IntegralType) (range : RangePolicy Space) (part_size : Int) :
    Option Int :=
  match T.div (T.add (T.sub range.end range.begin)
      (T.convert (IntegralType.int.sub part_size 1))) (T.convert part_size) with
  | none => none
  | some q =>
    some (Int.land (T.add q range.m_granularity_mask)
      (T.complement range.m_granularity_mask))

/-- The constructor `WorkRange(range, part_rank, part_size)` for the member
type `T`. -/
def ofPolicy (T : IntegralType) (range : RangePolicy Space) (part_rank part_size : Int) :
    Option WorkRange :=
  if part_size ≠ 0 then
    match work_part T range part_size with
    | none => none
    | some work_part =>
      let b := T.add range.begin (T.mul work_part (T.convert part_rank))
      let e := T.add b work_part
      let b := if range.end < b then range.end else b
      let e := if range.end < e then range.end else e
      some ⟨b, e⟩
  else some ⟨T.convert 0, T.convert 0⟩

/-- The static member `ibegin` of `TeamThreadRangeBoundariesStruct` for the
index type `T`. -/
def ibegin (T : IntegralType) (arg_begin arg_end arg_rank arg_size : Int) : Option Int :=
  match T.div (T.sub (T.add (T.sub arg_end arg_begin) arg_size) (T.convert 1)) arg_size with
  | none => none
  | some q => some (T.add arg_begin (T.mul q arg_rank))

/-- The static member `iend` of `TeamThreadRangeBoundariesStruct` for the index
type `T`. -/
def iend (T : IntegralType) (arg_begin arg_end arg_rank arg_size : Int) : Option Int :=
  match T.div (T.sub (T.add (T.sub arg_end arg_begin) arg_size) (T.convert 1)) arg_size with
  | none => none
  | some q =>
    let end_ := T.add arg_begin (T.mul q (T.add arg_rank (T.convert 1)))
    some (if end_ < arg_end then end_ else arg_end)

/-- The constructor `TeamThreadRangeBoundariesStruct(arg_thread, arg_end)` for
the index type `T`; `team_rank()` and `team_size()` are converted to `T`. -/
def ofCount (T : IntegralType) (arg_thread : TeamMember) (arg_end : Int) :
    Option TeamThreadRangeBoundariesStruct :=
  match ibegin T (T.convert 0) arg_end (T.convert arg_thread.team_rank)
          (T.convert arg_thread.team_size),
        iend T (T.convert 0) arg_end (T.convert arg_thread.team_rank)
          (T.convert arg_thread.team_size) with
  | some s, some e => some ⟨s, e, arg_thread⟩
  | _, _ => none

/-- The constructor `TeamThreadRangeBoundariesStruct(arg_thread, arg_begin, arg_end)`
for the index type `T`. -/
def ofBeginEnd (T : IntegralType) (arg_thread : TeamMember) (arg_begin arg_end : Int) :
    Option TeamThreadRangeBoundariesStruct :=
  match ibegin T arg_begin arg_end (T.convert arg_thread.team_rank)
          (T.convert arg_thread.team_size),
        iend T arg_begin arg_end (T.convert arg_thread.team_rank)
          (T.convert arg_thread.team_size) with
  | some s, some e => some ⟨s, e, arg_thread⟩
  | _, _ => none

end Fixed
/-- The policy `RangePolicy<unsigned>(0, 4294967295)`: default granularity 8. -/
def wideUnsigned : RangePolicy Unit := Fixed.ofRange IntegralType.unsigned_int 0 4294967295

/-- The policy `RangePolicy<unsigned>(50, 100)`: default granularity 8. -/
def smallUnsigned : RangePolicy Unit := Fixed.ofRange IntegralType.unsigned_int 50 100

/-- The policy `RangePolicy<unsigned>(0, 3200000000, ChunkSize(0))`. -/
def zeroChunk32e8 : RangePolicy Unit :=
  Fixed.ofRangeChunk IntegralType.unsigned_int 0 3200000000 (ChunkSize.ofValue 0)

theorem nat_ldiff_two_pow_sub_one (n k : Nat) :
    Nat.ldiff n (2 ^ k - 1) = n / 2 ^ k * 2 ^ k := by
  apply Nat.eq_of_testBit_eq
  intro i
  rw [Nat.testBit_ldiff, Nat.testBit_two_pow_sub_one, ← Nat.shiftRight_eq_div_pow,
    ← Nat.shiftLeft_eq, Nat.testBit_shiftLeft, Nat.testBit_shiftRight]
  by_cases h : i < k
  · simp [h]
  · have : k + (i - k) = i := by omega
    simp [h, this]
    omega

theorem int_land_not_two_pow_sub_one (x : Int) (k : Nat) (hx : 0 ≤ x) :
    Int.land (x + (2 ^ k - 1)) (~~~ (2 ^ k - 1)) = (x + (2 ^ k - 1)) / 2 ^ k * 2 ^ k := by
  obtain ⟨a, rfl⟩ := Int.eq_ofNat_of_zero_le hx
  have hpos : 1 ≤ 2 ^ k := Nat.one_le_two_pow
  have h1 : ((a : Int) + (2 ^ k - 1)) = ((a + (2 ^ k - 1) : Nat) : Int) := by
    push_cast [Nat.cast_sub hpos]; ring
  have h2 : ((2 : Int) ^ k - 1) = ((2 ^ k - 1 : Nat) : Int) := by
    push_cast [Nat.cast_sub hpos]; ring
  rw [h1, h2]
  have h3 : Int.land ((a + (2 ^ k - 1) : Nat) : Int) (~~~ ((2 ^ k - 1 : Nat) : Int))
      = ((Nat.ldiff (a + (2 ^ k - 1)) (2 ^ k - 1) : Nat) : Int) := rfl
  rw [h3, nat_ldiff_two_pow_sub_one]
  push_cast
  rfl

theorem int_land_not_nonneg (x m : Int) (hx : 0 ≤ x) (hm : 0 ≤ m) :
    0 ≤ Int.land x (~~~ m) := by
  obtain ⟨a, rfl⟩ := Int.eq_ofNat_of_zero_le hx
  obtain ⟨b, rfl⟩ := Int.eq_ofNat_of_zero_le hm
  have h : Int.land (a : Int) (~~~ (b : Int)) = ((Nat.ldiff a b : Nat) : Int) := rfl
  rw [h]
  exact Int.ofNat_nonneg _

/-- Rounding up to a multiple of `2 ^ k` with the mask `2 ^ k - 1`. -/
theorem round_up_mask (x : Int) (k : Nat) (hx : 0 ≤ x) :
    (2 : Int) ^ k ∣ Int.land (x + (2 ^ k - 1)) (~~~ (2 ^ k - 1)) ∧
    x ≤ Int.land (x + (2 ^ k - 1)) (~~~ (2 ^ k - 1)) ∧
    Int.land (x + (2 ^ k - 1)) (~~~ (2 ^ k - 1)) < x + 2 ^ k := by
  rw [int_land_not_two_pow_sub_one x k hx]
  have hg : (0 : Int) < 2 ^ k := by positivity
  refine ⟨Dvd.intro_left _ rfl, ?_, ?_⟩
  · have := Int.lt_ediv_add_one_mul_self (x + (2 ^ k - 1)) hg
    linarith
  · have := Int.ediv_mul_le (x + (2 ^ k - 1)) (ne_of_gt hg)
    linarith

/-- The C++ expression `(len + (n - 1)) / n` is the ceiling of `len / n`. -/
theorem cdiv_ceil (len n : Int) (hlen : 0 ≤ len) (hn : 1 ≤ n) :
    ∃ q, cdiv (len + (n - 1)) n = some q ∧ 0 ≤ q ∧ len ≤ q * n ∧ (q - 1) * n < len := by
  have hn0 : n ≠ 0 := by omega
  have hnpos : 0 < n := by omega
  refine ⟨(len + (n - 1)) / n, ?_, ?_, ?_, ?_⟩
  · simp [cdiv, hn0, Int.tdiv_eq_ediv (by omega : 0 ≤ len + (n - 1)) (by omega : 0 ≤ n)]
  · exact Int.ediv_nonneg (by omega) (by omega)
  · have := Int.lt_ediv_add_one_mul_self (len + (n - 1)) hnpos
    linarith
  · have := Int.ediv_mul_le (len + (n - 1)) hn0
    linarith

/-! ## The `WorkRange` constructor -/

/-- With a non-zero `part_size` and a defined `work_part`, the constructor
yields the two clamped bounds. -/
theorem ofPolicy_of_work_part {Space : Type} (p : RangePolicy Space) (rank n wp : Int)
    (hn : n ≠ 0) (hwp : WorkRange.work_part p n = some wp) :
    WorkRange.ofPolicy p rank n =
      some ⟨if p.m_end < p.m_begin + wp * rank then p.m_end else p.m_begin + wp * rank,
            if p.m_end < p.m_begin + wp * rank + wp then p.m_end
            else p.m_begin + wp * rank + wp⟩ := by
  simp [WorkRange.ofPolicy, hn, hwp, RangePolicy.begin, RangePolicy.end]

/-- For a power-of-two granularity `2 ^ k` the local `work_part` is defined and
is the ceiling of `len / n` rounded up to a multiple of `2 ^ k`. -/
theorem work_part_pow2 {Space : Type} (p : RangePolicy Space) (n : Int) (k : Nat)
    (hle : p.m_begin ≤ p.m_end) (hn : 1 ≤ n) (hmask : p.m_granularity_mask = 2 ^ k - 1) :
    ∃ q wp, WorkRange.work_part p n = some wp ∧ 0 ≤ q ∧
      p.m_end - p.m_begin ≤ q * n ∧ (q - 1) * n < p.m_end - p.m_begin ∧
      (2 : Int) ^ k ∣ wp ∧ q ≤ wp ∧ wp < q + 2 ^ k := by
  obtain ⟨q, hq, hq0, hq1, hq2⟩ := cdiv_ceil (p.m_end - p.m_begin) n (by omega) hn
  obtain ⟨h1, h2, h3⟩ := round_up_mask q k hq0
  refine ⟨q, _, ?_, hq0, hq1, hq2, h1, h2, h3⟩
  simp [WorkRange.work_part, RangePolicy.begin, RangePolicy.end, hq, hmask]

/-- For any granularity mask `≥ 0` the local `work_part` is defined and
non-negative. -/
theorem work_part_nonneg {Space : Type} (p : RangePolicy Space) (n : Int)
    (hle : p.m_begin ≤ p.m_end) (hn : 1 ≤ n) (hmask : 0 ≤ p.m_granularity_mask) :
    ∃ wp, WorkRange.work_part p n = some wp ∧ 0 ≤ wp := by
  obtain ⟨q, hq, hq0, -, -⟩ := cdiv_ceil (p.m_end - p.m_begin) n (by omega) hn
  refine ⟨_, ?_, int_land_not_nonneg (q + p.m_granularity_mask) p.m_granularity_mask
    (by omega) hmask⟩
  simp [WorkRange.work_part, RangePolicy.begin, RangePolicy.end, hq]

/-- C1: for a policy with `begin < end`, a power-of-two granularity and its
mask, and `count ≥ 1`, the constructor yields a sub-range for every rank, and
the sub-ranges of ranks `0 .. count-1` are contiguous in rank order, start at
`begin()`, stop at `end()`, are pairwise disjoint and cover exactly
`[begin(), end())`. -/
theorem workrange_partition_exact {Space : Type} (p : RangePolicy Space) (count : Int)
    (hlt : p.begin < p.end) (hpow : ∃ k : Nat, p.m_granularity = 2 ^ k)
    (hmask : p.m_granularity_mask = p.m_granularity - 1) (hc : 1 ≤ count) :
    ∃ w : Int → WorkRange,
      (∀ rank, WorkRange.ofPolicy p rank count = some (w rank)) ∧
      (w 0).begin = p.begin ∧
      (w (count - 1)).end = p.end ∧
      (∀ r, 0 ≤ r → r < count - 1 → (w r).end = (w (r + 1)).begin) ∧
      (∀ r, 0 ≤ r → r < count → (w r).begin ≤ (w r).end) ∧
      (∀ i, (p.begin ≤ i ∧ i < p.end) ↔
        ∃ r, 0 ≤ r ∧ r < count ∧ (w r).begin ≤ i ∧ i < (w r).end) ∧
      (∀ r s i, 0 ≤ r → r < s → s < count →
        ¬ ((w r).begin ≤ i ∧ i < (w r).end ∧ (w s).begin ≤ i ∧ i < (w s).end)) := by
  obtain ⟨k, hk⟩ := hpow
  simp only [RangePolicy.begin, RangePolicy.end] at hlt
  obtain ⟨q, wp, hwp, hq0, hq1, hq2, -, hq4, -⟩ :=
    work_part_pow2 p count k (le_of_lt hlt) hc (by rw [hmask, hk])
  have hqpos : 0 < q := by
    by_contra hcon
    have : q = 0 := by omega
    subst this
    omega
  have hwppos : 0 < wp := by omega
  have hcover : p.m_end - p.m_begin ≤ wp * count := by
    have : q * count ≤ wp * count := by nlinarith
    linarith
  refine ⟨fun rank =>
      ⟨if p.m_end < p.m_begin + wp * rank then p.m_end else p.m_begin + wp * rank,
       if p.m_end < p.m_begin + wp * rank + wp then p.m_end
       else p.m_begin + wp * rank + wp⟩,
    fun rank => ofPolicy_of_work_part p rank count wp (by omega) hwp, ?_, ?_, ?_, ?_, ?_, ?_⟩
  · simp [WorkRange.begin, RangePolicy.begin, le_of_lt hlt]
  · simp only [WorkRange.end, RangePolicy.end]
    have : wp * (count - 1) + wp = wp * count := by ring
    split_ifs with h
    · rfl
    · linarith
  · intro r _ _
    simp only [WorkRange.end, WorkRange.begin]
    have : wp * (r + 1) = wp * r + wp := by ring
    rw [this, ← add_assoc]
  · intro r _ _
    simp only [WorkRange.end, WorkRange.begin]
    split_ifs <;> linarith
  · intro i
    simp only [WorkRange.end, WorkRange.begin, RangePolicy.begin, RangePolicy.end]
    constructor
    · rintro ⟨hi1, hi2⟩
      have hr1 := Int.ediv_mul_le (i - p.m_begin) (ne_of_gt hwppos)
      have hr2 := Int.lt_ediv_add_one_mul_self (i - p.m_begin) hwppos
      refine ⟨(i - p.m_begin) / wp, Int.ediv_nonneg (by omega) (le_of_lt hwppos), ?_, ?_, ?_⟩
      · by_contra hcon
        have : wp * count ≤ wp * ((i - p.m_begin) / wp) := by nlinarith
        linarith
      · split_ifs <;> linarith
      · split_ifs <;> linarith
    · rintro ⟨r, hr0, hr1, hb, he⟩
      have : 0 ≤ wp * r := by positivity
      constructor
      · split_ifs at hb <;> linarith
      · split_ifs at he <;> linarith
  · intro r s i hr0 hrs hs
    simp only [WorkRange.end, WorkRange.begin]
    rintro ⟨-, he, hb, -⟩
    have : wp * r + wp ≤ wp * s := by nlinarith
    split_ifs at he hb <;> linarith

/-- Witness of C1: the policy `(0, 100)` with the default granularity, split
into 3 parts. -/
theorem workrange_partition_exact_witness :
    (policy100.begin < policy100.end ∧ (∃ k : Nat, policy100.m_granularity = 2 ^ k) ∧
      policy100.m_granularity_mask = policy100.m_granularity - 1 ∧ (1 : Int) ≤ 3) ∧
    ∃ w : Int → WorkRange,
      (∀ rank, WorkRange.ofPolicy policy100 rank 3 = some (w rank)) ∧
      (w 0).begin = policy100.begin ∧
      (w (3 - 1)).end = policy100.end ∧
      (∀ r, 0 ≤ r → r < 3 - 1 → (w r).end = (w (r + 1)).begin) ∧
      (∀ r, 0 ≤ r → r < 3 → (w r).begin ≤ (w r).end) ∧
      (∀ i, (policy100.begin ≤ i ∧ i < policy100.end) ↔
        ∃ r, 0 ≤ r ∧ r < 3 ∧ (w r).begin ≤ i ∧ i < (w r).end) ∧
      (∀ r s i, 0 ≤ r → r < s → s < 3 →
        ¬ ((w r).begin ≤ i ∧ i < (w r).end ∧ (w s).begin ≤ i ∧ i < (w s).end)) :=
  ⟨⟨by decide, ⟨3, by decide⟩, by decide, by decide⟩,
   workrange_partition_exact policy100 3 (by decide) ⟨3, by decide⟩ (by decide) (by decide)⟩

/-- C2, amended: over unbounded integers, for a policy with `begin ≤ end`, a
power-of-two granularity `g` and its mask, and `count ≥ 1`, the local `work_part` is defined and is the least
multiple of `g` that is at least `q = ceil((end - begin) / count)`; every rank
has a sub-range, and a sub-range that `end()` does not clamp has length
`work_part`. -/
theorem work_part_least_multiple {Space : Type} (p : RangePolicy Space) (count : Int)
    (hle : p.begin ≤ p.end) (hpow : ∃ k : Nat, p.m_granularity = 2 ^ k)
    (hmask : p.m_granularity_mask = p.m_granularity - 1) (hc : 1 ≤ count) :
    ∃ q wp : Int,
      (p.end - p.begin ≤ q * count ∧ ∀ q', p.end - p.begin ≤ q' * count → q ≤ q') ∧
      cdiv ((p.end - p.begin) + (count - 1)) count = some q ∧
      WorkRange.work_part p count = some wp ∧
      p.m_granularity ∣ wp ∧ q ≤ wp ∧
      (∀ m, p.m_granularity ∣ m → q ≤ m → wp ≤ m) ∧
      ∀ rank, ∃ w, WorkRange.ofPolicy p rank count = some w ∧
        (¬ (p.end < p.begin + wp * rank + wp) → w.end - w.begin = wp) := by
  obtain ⟨k, hk⟩ := hpow
  simp only [RangePolicy.begin, RangePolicy.end] at hle ⊢
  obtain ⟨q, hq, hq0, hq1, hq2⟩ := cdiv_ceil (p.m_end - p.m_begin) count (by omega) hc
  obtain ⟨h1, h2, h3⟩ := round_up_mask q k hq0
  have hwp : WorkRange.work_part p count
      = some (Int.land (q + (2 ^ k - 1)) (~~~ (2 ^ k - 1))) := by
    simp [WorkRange.work_part, RangePolicy.begin, RangePolicy.end, hq, hmask, hk]
  have hgpos : (0 : Int) < 2 ^ k := by positivity
  refine ⟨q, _, ⟨hq1, ?_⟩, hq, hwp, by rw [hk]; exact h1, h2, ?_, ?_⟩
  · intro q' hq'
    by_contra hcon
    have : q' * count ≤ (q - 1) * count := by nlinarith
    linarith
  · rw [hk]
    rintro m ⟨a, rfl⟩ hm
    obtain ⟨b, hb⟩ := h1
    rw [hb] at h3 ⊢
    by_contra hcon
    have hab : a + 1 ≤ b := by
      by_contra hcon2
      have : b ≤ a := by omega
      have : 2 ^ k * b ≤ 2 ^ k * a := by nlinarith
      linarith
    have : 2 ^ k * (a + 1) ≤ 2 ^ k * b := by nlinarith
    linarith
  · intro rank
    refine ⟨_, ofPolicy_of_work_part p rank count _ (by omega) hwp, ?_⟩
    intro hnc
    have hwp0 : 0 ≤ Int.land (q + (2 ^ k - 1)) (~~~ (2 ^ k - 1)) := by linarith
    simp only [WorkRange.end, WorkRange.begin]
    rw [if_neg hnc, if_neg (by linarith)]
    ring

/-- Witness of the amended C2: the policy `(0, 100)` with the default granularity, split
into 3 parts. -/
theorem work_part_least_multiple_witness :
    (policy100.begin ≤ policy100.end ∧ (∃ k : Nat, policy100.m_granularity = 2 ^ k) ∧
      policy100.m_granularity_mask = policy100.m_granularity - 1 ∧ (1 : Int) ≤ 3) ∧
    ∃ q wp : Int,
      (policy100.end - policy100.begin ≤ q * 3 ∧
        ∀ q', policy100.end - policy100.begin ≤ q' * 3 → q ≤ q') ∧
      cdiv ((policy100.end - policy100.begin) + (3 - 1)) 3 = some q ∧
      WorkRange.work_part policy100 3 = some wp ∧
      policy100.m_granularity ∣ wp ∧ q ≤ wp ∧
      (∀ m, policy100.m_granularity ∣ m → q ≤ m → wp ≤ m) ∧
      ∀ rank, ∃ w, WorkRange.ofPolicy policy100 rank 3 = some w ∧
        (¬ (policy100.end < policy100.begin + wp * rank + wp) → w.end - w.begin = wp) :=
  ⟨⟨by decide, ⟨3, by decide⟩, by decide, by decide⟩,
   work_part_least_multiple policy100 3 (by decide) ⟨3, by decide⟩ (by decide) (by decide)⟩

/-! ## Evaluating `x & ~m` on numerals -/

theorem nat_ldiff_eq_xor_land (a m : Nat) : Nat.ldiff a m = a ^^^ (a &&& m) := by
  apply Nat.eq_of_testBit_eq
  intro i
  rw [Nat.testBit_ldiff, Nat.testBit_xor, Nat.testBit_and]
  cases a.testBit i <;> cases m.testBit i <;> rfl

theorem int_land_not_ofNat (a m : Nat) :
    Int.land (a : Int) (~~~ (m : Int)) = ((a ^^^ (a &&& m) : Nat) : Int) := by
  have h : Int.land (a : Int) (~~~ (m : Int)) = ((Nat.ldiff a m : Nat) : Int) := rfl
  rw [h, nat_ldiff_eq_xor_land]

/-- C3, evaluated at `RangePolicy(0, 10, ChunkSize(3))` split into 3 parts: the
granularity is 3, the sub-ranges are `[0,4)`, `[4,8)`, `[8,10)`, and the
length 4 of the first two is not a multiple of 3. -/
theorem workrange_chunk3_misaligned :
    policyChunk3.chunk_size = 3 ∧
    WorkRange.ofPolicy policyChunk3 0 3 = some ⟨0, 4⟩ ∧
    WorkRange.ofPolicy policyChunk3 1 3 = some ⟨4, 8⟩ ∧
    WorkRange.ofPolicy policyChunk3 2 3 = some ⟨8, 10⟩ ∧
    ¬ (policyChunk3.chunk_size ∣ (4 - 0 : Int)) ∧
    ¬ (policyChunk3.chunk_size ∣ (8 - 4 : Int)) := by
  have h : Int.land 6 (~~~ 2) = 4 := int_land_not_ofNat 6 2
  have hwp : WorkRange.work_part policyChunk3 3 = some 4 := by
    simp [WorkRange.work_part, cdiv, policyChunk3, RangePolicy.ofRangeChunk,
      ChunkSize.ofValue, RangePolicy.begin, RangePolicy.end]
    exact h
  refine ⟨rfl, ?_, ?_, ?_, by decide, by decide⟩ <;>
  · rw [ofPolicy_of_work_part _ _ _ 4 (by decide) hwp]
    decide

/-- C4: for every policy and every rank, a partition count of zero yields
the sub-range with `begin() = 0` and `end() = 0`, and no division takes place
(a division by zero would make the result `none`). -/
theorem workrange_zero_count {Space : Type} (p : RangePolicy Space) (rank : Int) :
    ∃ w, WorkRange.ofPolicy p rank 0 = some w ∧ w.begin = 0 ∧ w.end = 0 :=
  ⟨⟨0, 0⟩, by simp [WorkRange.ofPolicy], rfl, rfl⟩

/-- C5, amended: over unbounded integers, for a policy with `begin ≤ end`,
granularity `≥ 1` and its mask,
`count ≥ 1` and any rank `≥ 0`, the sub-range lies inside the policy's range
and is ordered; and when `begin + work_part * rank ≥ end` it is the empty range
`[end, end)`. -/
theorem workrange_clamped {Space : Type} (p : RangePolicy Space) (rank count : Int)
    (hle : p.begin ≤ p.end) (hg : 1 ≤ p.m_granularity)
    (hmask : p.m_granularity_mask = p.m_granularity - 1) (hc : 1 ≤ count) (hr : 0 ≤ rank) :
    ∃ wp w, WorkRange.work_part p count = some wp ∧
      WorkRange.ofPolicy p rank count = some w ∧
      p.begin ≤ w.begin ∧ w.begin ≤ w.end ∧ w.end ≤ p.end ∧
      (p.end ≤ p.begin + wp * rank → w.begin = p.end ∧ w.end = p.end) := by
  simp only [RangePolicy.begin, RangePolicy.end] at hle ⊢
  obtain ⟨wp, hwp, hwp0⟩ := work_part_nonneg p count hle hc (by omega)
  have hmul : 0 ≤ wp * rank := by positivity
  refine ⟨wp, _, hwp, ofPolicy_of_work_part p rank count wp (by omega) hwp, ?_, ?_, ?_, ?_⟩
  · simp only [WorkRange.begin]
    split_ifs <;> linarith
  · simp only [WorkRange.begin, WorkRange.end]
    split_ifs <;> linarith
  · simp only [WorkRange.end]
    split_ifs <;> linarith
  · intro h
    simp only [WorkRange.begin, WorkRange.end]
    constructor <;> split_ifs <;> linarith

/-- Witness of the amended C5: the policy `(0, 10, ChunkSize(3))`, rank 5 of 3 parts. -/
theorem workrange_clamped_witness :
    (policyChunk3.begin ≤ policyChunk3.end ∧ 1 ≤ policyChunk3.m_granularity ∧
      policyChunk3.m_granularity_mask = policyChunk3.m_granularity - 1 ∧
      (1 : Int) ≤ 3 ∧ (0 : Int) ≤ 5) ∧
    ∃ wp w, WorkRange.work_part policyChunk3 3 = some wp ∧
      WorkRange.ofPolicy policyChunk3 5 3 = some w ∧
      policyChunk3.begin ≤ w.begin ∧ w.begin ≤ w.end ∧ w.end ≤ policyChunk3.end ∧
      (policyChunk3.end ≤ policyChunk3.begin + wp * 5 →
        w.begin = policyChunk3.end ∧ w.end = policyChunk3.end) :=
  ⟨⟨by decide, by decide, by decide, by decide, by decide⟩,
   workrange_clamped policyChunk3 5 3 (by decide) (by decide) (by decide) (by decide)
     (by decide)⟩

/-- C6: each of the four constructors taking `(work_begin, work_end)` stores
`[0, 0)` when `work_begin ≥ work_end` and `[work_begin, work_end)` otherwise, so
`begin() ≤ end()` for every constructed policy. -/
theorem rangepolicy_normalization {Space : Type} [Inhabited Space] (work_space : Space)
    (work_begin work_end : Int) (chunk : ChunkSize) :
    NormalizedRange work_begin work_end
      (RangePolicy.ofRange work_begin work_end : RangePolicy Space) ∧
    NormalizedRange work_begin work_end
      (RangePolicy.ofSpaceRange work_space work_begin work_end) ∧
    NormalizedRange work_begin work_end
      (RangePolicy.ofRangeChunk work_begin work_end chunk : RangePolicy Space) ∧
    NormalizedRange work_begin work_end
      (RangePolicy.ofSpaceRangeChunk work_space work_begin work_end chunk) := by
  refine ⟨?_, ?_, ?_, ?_⟩ <;>
  · simp only [NormalizedRange, RangePolicy.ofRange, RangePolicy.ofSpaceRange,
      RangePolicy.ofRangeChunk, RangePolicy.ofSpaceRangeChunk, RangePolicy.begin,
      RangePolicy.end]
    refine ⟨fun h => ?_, fun h => ?_, ?_⟩
    · rw [if_neg (by omega), if_neg (by omega)]; exact ⟨rfl, rfl⟩
    · rw [if_pos h, if_pos h]; exact ⟨rfl, rfl⟩
    · split_ifs <;> omega


/-! ## The loops of `set_chunk_size` -/

theorem two_pow_le_two_pow {m n : Nat} (h : m ≤ n) : (2 : Int) ^ m ≤ 2 ^ n := by
  exact_mod_cast Nat.pow_le_pow_right (by decide : 2 > 0) h

theorem lt_of_two_pow_lt_two_pow {m n : Nat} (h : (2 : Int) ^ m < 2 ^ n) : m < n := by
  by_contra hcon
  have := two_pow_le_two_pow (Nat.le_of_not_lt hcon)
  linarith

theorem le_two_pow_toNat (len : Int) (f : Nat) (hf : len.toNat ≤ f) : len ≤ 2 ^ f := by
  have h1 : len ≤ (len.toNat : Int) := Int.self_le_toNat len
  have h2 : f < 2 ^ f := Nat.lt_two_pow f
  have h3 : ((f : Nat) : Int) < 2 ^ f := by exact_mod_cast h2
  have h4 : (len.toNat : Int) ≤ (f : Int) := by exact_mod_cast hf
  linarith

/-- The first loop started at `2 ^ i` stops at the first exponent `j ≥ i` at
which its condition fails, given fuel for `len ≤ 2 ^ (i + fuel)`. -/
theorem loop100_spec (c len : Int) (hc : 1 ≤ c) :
    ∀ (fuel i : Nat), len ≤ 2 ^ (i + fuel) →
      ∃ j, i ≤ j ∧ RangePolicy.loop100 (fuel + 1) c len (2 ^ i) = some (2 ^ j) ∧
        ¬ ((2 : Int) ^ j * 100 * c < len) ∧
        ∀ m, i ≤ m → m < j → (2 : Int) ^ m * 100 * c < len := by
  intro fuel
  induction fuel with
  | zero =>
    intro i h
    have hpos : (0 : Int) < 2 ^ i := by positivity
    have hstop : ¬ ((2 : Int) ^ i * 100 * c < len) := by
      have : (2 : Int) ^ i ≤ 2 ^ i * 100 * c := by nlinarith
      simp only [Nat.add_zero] at h
      linarith
    exact ⟨i, le_refl i, by simp [RangePolicy.loop100, hstop], hstop,
      fun m h1 h2 => absurd h2 (by omega)⟩
  | succ fuel ih =>
    intro i h
    by_cases hcond : (2 : Int) ^ i * 100 * c < len
    · have hfuel : len ≤ 2 ^ (i + 1 + fuel) := by
        have : i + 1 + fuel = i + (fuel + 1) := by omega
        rw [this]; exact h
      obtain ⟨j, hij, hres, hstop, hbelow⟩ := ih (i + 1) hfuel
      refine ⟨j, by omega, ?_, hstop, ?_⟩
      · rw [RangePolicy.loop100, if_pos hcond, ← pow_succ]
        exact hres
      · intro m h1 h2
        by_cases hm : m = i
        · rw [hm]; exact hcond
        · exact hbelow m (by omega) h2
    · exact ⟨i, le_refl i, by rw [RangePolicy.loop100, if_neg hcond], hcond,
        fun m h1 h2 => absurd h2 (by omega)⟩


/-- The second loop started at `2 ^ i` stops at the first exponent `j ≥ i` at
which its condition fails, given fuel for `len ≤ 2 ^ (i + fuel)`. -/
theorem loop40_spec (c len : Int) (hc : 1 ≤ c) :
    ∀ (fuel i : Nat), len ≤ 2 ^ (i + fuel) →
      ∃ j, i ≤ j ∧ RangePolicy.loop40 (fuel + 1) c len (2 ^ i) = some (2 ^ j) ∧
        ¬ ((2 : Int) ^ j * 40 * c < len ∧ (2 : Int) ^ j < 128) ∧
        ∀ m, i ≤ m → m < j → ((2 : Int) ^ m * 40 * c < len ∧ (2 : Int) ^ m < 128) := by
  intro fuel
  induction fuel with
  | zero =>
    intro i h
    have hpos : (0 : Int) < 2 ^ i := by positivity
    have hstop : ¬ ((2 : Int) ^ i * 40 * c < len ∧ (2 : Int) ^ i < 128) := by
      have : (2 : Int) ^ i ≤ 2 ^ i * 40 * c := by nlinarith
      simp only [Nat.add_zero] at h
      intro hcon
      linarith [hcon.1]
    exact ⟨i, le_refl i, by simp only [RangePolicy.loop40, if_neg hstop], hstop,
      fun m h1 h2 => absurd h2 (by omega)⟩
  | succ fuel ih =>
    intro i h
    by_cases hcond : (2 : Int) ^ i * 40 * c < len ∧ (2 : Int) ^ i < 128
    · have hfuel : len ≤ 2 ^ (i + 1 + fuel) := by
        have : i + 1 + fuel = i + (fuel + 1) := by omega
        rw [this]; exact h
      obtain ⟨j, hij, hres, hstop, hbelow⟩ := ih (i + 1) hfuel
      refine ⟨j, by omega, ?_, hstop, ?_⟩
      · rw [RangePolicy.loop40, if_pos hcond, ← pow_succ]
        exact hres
      · intro m h1 h2
        by_cases hm : m = i
        · rw [hm]; exact hcond
        · exact hbelow m (by omega) h2
    · exact ⟨i, le_refl i, by rw [RangePolicy.loop40, if_neg hcond], hcond,
        fun m h1 h2 => absurd h2 (by omega)⟩

/-- A loop condition that holds below `j` and fails at `j` determines `j`. -/
theorem first_failure_unique (C : Nat → Prop) (j j' : Nat)
    (hj : ¬ C j) (hbelow : ∀ m, m < j → C m) (hj' : ¬ C j') (hbelow' : ∀ m, m < j' → C m) :
    j = j' := by
  rcases Nat.lt_trichotomy j j' with h | h | h
  · exact absurd (hbelow' j h) hj
  · exact h
  · exact absurd (hbelow j' h) hj'

theorem isLeastPow2_unique (P : Int → Prop) (x y : Int)
    (hx : IsLeastPow2 P x) (hy : IsLeastPow2 P y) : x = y := by
  obtain ⟨⟨n, hn⟩, hPx, hminx⟩ := hx
  obtain ⟨⟨m, hm⟩, hPy, hminy⟩ := hy
  have h1 := hminx m (hm ▸ hPy)
  have h2 := hminy n (hn ▸ hPx)
  rw [← hm] at h1
  rw [← hn] at h2
  exact le_antisymm h1 h2

theorem exists_isLeastPow2 (b c len : Int) (hb : 1 ≤ b) (hc : 1 ≤ c) :
    ∃ k, IsLeastPow2 (fun x => len ≤ x * b * c) k := by
  have hex : ∃ n : Nat, len ≤ 2 ^ n * b * c := by
    refine ⟨len.toNat, ?_⟩
    have h1 := le_two_pow_toNat len len.toNat (le_refl _)
    have hpos : (0 : Int) < 2 ^ len.toNat := by positivity
    have : (2 : Int) ^ len.toNat ≤ 2 ^ len.toNat * b * c := by
      have : (2 : Int) ^ len.toNat ≤ 2 ^ len.toNat * b := by nlinarith
      nlinarith
    linarith
  classical
  exact ⟨2 ^ Nat.find hex, ⟨_, rfl⟩, Nat.find_spec hex,
    fun n hn => two_pow_le_two_pow (Nat.find_min' hex hn)⟩

/-- With enough fuel the first loop returns the least power of two `c1` with
`len ≤ c1 * 100 * c`. -/
theorem loop100_least (c len : Int) (hc : 1 ≤ c) :
    ∃ c1, IsLeastPow2 (fun x => len ≤ x * 100 * c) c1 ∧
      ∀ fuel, len.toNat + 1 ≤ fuel → RangePolicy.loop100 fuel c len 1 = some c1 := by
  obtain ⟨j, -, -, hstop, hbelow⟩ :=
    loop100_spec c len hc len.toNat 0 (by simpa using le_two_pow_toNat len _ (le_refl _))
  refine ⟨2 ^ j, ⟨⟨j, rfl⟩, by simpa using hstop, ?_⟩, ?_⟩
  · intro n hn
    apply two_pow_le_two_pow
    by_contra hcon
    have := hbelow n (Nat.zero_le _) (by omega)
    linarith
  · intro fuel hfuel
    obtain ⟨f, rfl⟩ : ∃ f, fuel = f + 1 := ⟨fuel - 1, by omega⟩
    obtain ⟨j', -, hres, hstop', hbelow'⟩ :=
      loop100_spec c len hc f 0 (by simpa using le_two_pow_toNat len f (by omega))
    have hjj : j = j' := first_failure_unique (fun m => (2 : Int) ^ m * 100 * c < len) j j'
      hstop (fun m hm => hbelow m (Nat.zero_le _) hm) hstop'
      (fun m hm => hbelow' m (Nat.zero_le _) hm)
    rw [hjj]
    simpa using hres


/-- With enough fuel the second loop returns `min 128 k` for the least power
of two `k` with `len ≤ k * 40 * c`. -/
theorem loop40_min (c len : Int) (hc : 1 ≤ c) :
    ∃ k, IsLeastPow2 (fun x => len ≤ x * 40 * c) k ∧
      ∀ fuel, len.toNat + 1 ≤ fuel → RangePolicy.loop40 fuel c len 1 = some (min 128 k) := by
  obtain ⟨k, hk⟩ := exists_isLeastPow2 40 c len (by decide) hc
  refine ⟨k, hk, ?_⟩
  intro fuel hfuel
  obtain ⟨f, rfl⟩ : ∃ f, fuel = f + 1 := ⟨fuel - 1, by omega⟩
  obtain ⟨j, -, hres, hstop, hbelow⟩ :=
    loop40_spec c len hc f 0 (by simpa using le_two_pow_toNat len f (by omega))
  have hres1 : RangePolicy.loop40 (f + 1) c len 1 = some (2 ^ j) := by simpa using hres
  rw [hres1]
  obtain ⟨⟨n, hn⟩, hPk, hmin⟩ := hk
  have hj128 : (2 : Int) ^ j ≤ 128 := by
    rcases Nat.eq_zero_or_pos j with h0 | hpos
    · rw [h0]; decide
    · have h1 := (hbelow (j - 1) (Nat.zero_le _) (by omega)).2
      have h2 : j - 1 < 7 := lt_of_two_pow_lt_two_pow (by simpa using h1)
      have h3 := two_pow_le_two_pow (show j ≤ 7 by omega)
      simpa using h3
  congr 1
  by_cases hP : len ≤ (2 : Int) ^ j * 40 * c
  · have h1 : k ≤ 2 ^ j := hmin j hP
    have h2 : (2 : Int) ^ j ≤ k := by
      rw [hn]
      apply two_pow_le_two_pow
      by_contra hcon
      have := (hbelow n (Nat.zero_le _) (by omega)).1
      rw [hn] at hPk
      linarith
    have : k = 2 ^ j := le_antisymm h1 h2
    rw [this, min_eq_right hj128]
  · have h128 : ¬ ((2 : Int) ^ j < 128) := fun h => hstop ⟨by linarith, h⟩
    have hj : (2 : Int) ^ j = 128 := by linarith
    have hk128 : (128 : Int) ≤ k := by
      rw [← hj, hn]
      apply two_pow_le_two_pow
      by_contra hcon
      have h1 : (2 : Int) ^ n ≤ 2 ^ j := two_pow_le_two_pow (by omega)
      rw [hn] at hPk
      have : (2 : Int) ^ n * 40 * c ≤ 2 ^ j * 40 * c := by nlinarith
      linarith
    rw [hj, min_eq_left hk128]

/-- With enough fuel the two searches of `set_chunk_size` return the chunk
size of the reference definition. -/
theorem auto_chunk_size_spec (c len : Int) (hc : 1 ≤ c) :
    ∃ c1 k, IsLeastPow2 (fun x => len ≤ x * 100 * c) c1 ∧
      IsLeastPow2 (fun x => len ≤ x * 40 * c) k ∧
      ∀ fuel, len.toNat + 1 ≤ fuel →
        RangePolicy.auto_chunk_size fuel c len = some (autoChunkOf c1 k) := by
  obtain ⟨c1, hc1, hloop1⟩ := loop100_least c len hc
  obtain ⟨k, hk, hloop2⟩ := loop40_min c len hc
  refine ⟨c1, k, hc1, hk, ?_⟩
  intro fuel hfuel
  simp only [RangePolicy.auto_chunk_size, hloop1 fuel hfuel, autoChunkOf]
  by_cases h : c1 < 128
  · rw [if_pos h, if_neg (by omega), hloop2 fuel hfuel]
  · rw [if_neg h, if_pos (by omega)]

/-- The sentinel branch of `set_chunk_size`: with granularity `≤ 0`,
concurrency `≥ 1` and enough fuel, the result is the policy with the reference
chunk size and its mask. -/
theorem set_chunk_size_auto {Space : Type} (p : RangePolicy Space) (c : Int)
    (hg : p.m_granularity ≤ 0) (hc : 1 ≤ c) :
    ∃ c1 k, IsLeastPow2 (fun x => p.m_end - p.m_begin ≤ x * 100 * c) c1 ∧
      IsLeastPow2 (fun x => p.m_end - p.m_begin ≤ x * 40 * c) k ∧
      ∀ fuel, (p.m_end - p.m_begin).toNat + 1 ≤ fuel →
        RangePolicy.set_chunk_size fuel p c =
          some { p with m_granularity := autoChunkOf c1 k
                        m_granularity_mask := autoChunkOf c1 k - 1 } := by
  obtain ⟨c1, k, hc1, hk, hrun⟩ := auto_chunk_size_spec c (p.m_end - p.m_begin) hc
  refine ⟨c1, k, hc1, hk, ?_⟩
  intro fuel hfuel
  rw [RangePolicy.set_chunk_size, if_neg (by omega), hrun fuel hfuel]

/-- C9, amended: over unbounded integers, for a policy with granularity `≤ 0`
and concurrency `c ≥ 1`, let `c1`
be the least power of two with `len ≤ c1 * 100 * c` and `k` the least power of
two with `len ≤ k * 40 * c`, `len = end - begin`; with enough fuel
`set_chunk_size` returns the policy whose granularity is `c1` if `c1 ≥ 128`
and `min 128 k` otherwise, whose mask is that value minus one, and whose other
members are unchanged. -/
theorem set_chunk_size_auto_reference {Space : Type} (p : RangePolicy Space) (c : Int)
    (hg : p.m_granularity ≤ 0) (hc : 1 ≤ c) :
    ∃ c1 k, IsLeastPow2 (fun x => p.m_end - p.m_begin ≤ x * 100 * c) c1 ∧
      IsLeastPow2 (fun x => p.m_end - p.m_begin ≤ x * 40 * c) k ∧
      ∃ N, ∀ fuel, N ≤ fuel →
        RangePolicy.set_chunk_size fuel p c =
          some { p with m_granularity := autoChunkOf c1 k
                        m_granularity_mask := autoChunkOf c1 k - 1 } := by
  obtain ⟨c1, k, hc1, hk, hrun⟩ := set_chunk_size_auto p c hg hc
  exact ⟨c1, k, hc1, hk, _, hrun⟩

/-- Witness of the amended C9: the policy `(0, 10000, ChunkSize(AUTO))` with concurrency 4. -/
theorem set_chunk_size_auto_reference_witness :
    (policyAuto.m_granularity ≤ 0 ∧ (1 : Int) ≤ 4) ∧
    ∃ c1 k, IsLeastPow2 (fun x => policyAuto.m_end - policyAuto.m_begin ≤ x * 100 * 4) c1 ∧
      IsLeastPow2 (fun x => policyAuto.m_end - policyAuto.m_begin ≤ x * 40 * 4) k ∧
      ∃ N, ∀ fuel, N ≤ fuel →
        RangePolicy.set_chunk_size fuel policyAuto 4 =
          some { policyAuto with m_granularity := autoChunkOf c1 k
                                 m_granularity_mask := autoChunkOf c1 k - 1 } :=
  ⟨⟨by decide, by decide⟩, set_chunk_size_auto_reference policyAuto 4 (by decide) (by decide)⟩

/-- The reference chunk size is a power of two. -/
theorem autoChunkOf_pow2 (P Q : Int → Prop) (c1 k : Int)
    (hc1 : IsLeastPow2 P c1) (hk : IsLeastPow2 Q k) : ∃ n : Nat, autoChunkOf c1 k = 2 ^ n := by
  obtain ⟨⟨n, hn⟩, -, -⟩ := hc1
  obtain ⟨⟨m, hm⟩, -, -⟩ := hk
  unfold autoChunkOf
  split_ifs
  · exact ⟨n, hn⟩
  · rcases le_total (128 : Int) k with h | h
    · exact ⟨7, by rw [min_eq_left h]; rfl⟩
    · exact ⟨m, by rw [min_eq_right h]; exact hm⟩

/-- With `arg_size ≥ 1` and `arg_begin ≤ arg_end` both bounds are defined and
use the ceiling `q` of `(arg_end - arg_begin) / arg_size`. -/
theorem team_thread_bounds (b e s : Int) (hle : b ≤ e) (hs : 1 ≤ s) :
    ∃ q, 0 ≤ q ∧ e - b ≤ q * s ∧ (q - 1) * s < e - b ∧
      ∀ rank,
        TeamThreadRangeBoundariesStruct.ofBeginEnd ⟨rank, s⟩ b e =
          some ⟨b + q * rank,
                if b + q * (rank + 1) < e then b + q * (rank + 1) else e, ⟨rank, s⟩⟩ := by
  obtain ⟨q, hq, hq0, hq1, hq2⟩ := cdiv_ceil (e - b) s (by omega) hs
  have hq' : cdiv (e - b + s - 1) s = some q := by
    have : e - b + s - 1 = e - b + (s - 1) := by ring
    rw [this]; exact hq
  refine ⟨q, hq0, hq1, hq2, fun rank => ?_⟩
  simp [TeamThreadRangeBoundariesStruct.ofBeginEnd, TeamThreadRangeBoundariesStruct.ibegin,
    TeamThreadRangeBoundariesStruct.iend, hq']

/-- C12, amended: over unbounded integers, for `begin ≤ end` and team size
`s ≥ 1`, with `q` the ceiling of
`(end - begin) / s`, the constructor yields for every rank the boundaries
`start = begin + q * rank` and `end = min(end, start + q)`; the index sets of
ranks `0 .. s-1` are pairwise disjoint and their union is `[begin, end)`; and
the single-count constructor equals the one called with `(thread, 0, count)`. -/
theorem team_thread_range_reconstruction (b e s : Int) (hle : b ≤ e) (hs : 1 ≤ s) :
    ∃ q : Int, (e - b ≤ q * s ∧ ∀ q', e - b ≤ q' * s → q ≤ q') ∧
    ∃ w : Int → TeamThreadRangeBoundariesStruct,
      (∀ rank, TeamThreadRangeBoundariesStruct.ofBeginEnd ⟨rank, s⟩ b e = some (w rank)) ∧
      (∀ rank, (w rank).start = b + q * rank ∧ (w rank).end = min e ((w rank).start + q)) ∧
      (∀ i, (b ≤ i ∧ i < e) ↔
        ∃ r, 0 ≤ r ∧ r < s ∧ (w r).start ≤ i ∧ i < (w r).end) ∧
      (∀ r r' i, 0 ≤ r → r < r' → r' < s →
        ¬ ((w r).start ≤ i ∧ i < (w r).end ∧ (w r').start ≤ i ∧ i < (w r').end)) ∧
      (∀ rank count, TeamThreadRangeBoundariesStruct.ofCount ⟨rank, s⟩ count =
        TeamThreadRangeBoundariesStruct.ofBeginEnd ⟨rank, s⟩ 0 count) := by
  obtain ⟨q, hq0, hq1, hq2, hrun⟩ := team_thread_bounds b e s hle hs
  have hcover : e - b ≤ q * s := hq1
  refine ⟨q, ⟨hq1, ?_⟩, fun rank => ⟨b + q * rank,
    if b + q * (rank + 1) < e then b + q * (rank + 1) else e, ⟨rank, s⟩⟩, hrun, ?_, ?_, ?_, ?_⟩
  · intro q' hq'
    by_contra hcon
    have : q' * s ≤ (q - 1) * s := by nlinarith
    linarith
  · intro rank
    refine ⟨rfl, ?_⟩
    show (if b + q * (rank + 1) < e then b + q * (rank + 1) else e) = min e (b + q * rank + q)
    have : b + q * (rank + 1) = b + q * rank + q := by ring
    rw [this]
    split_ifs with h
    · rw [min_eq_right (le_of_lt h)]
    · rw [min_eq_left (by linarith)]
  · intro i
    show (b ≤ i ∧ i < e) ↔ ∃ r, 0 ≤ r ∧ r < s ∧ b + q * r ≤ i ∧
      i < (if b + q * (r + 1) < e then b + q * (r + 1) else e)
    constructor
    · rintro ⟨hi1, hi2⟩
      have hqpos : 0 < q := by
        by_contra hcon
        have : q = 0 := by omega
        subst this
        omega
      have hr1 := Int.ediv_mul_le (i - b) (ne_of_gt hqpos)
      have hr2 := Int.lt_ediv_add_one_mul_self (i - b) hqpos
      refine ⟨(i - b) / q, Int.ediv_nonneg (by omega) (le_of_lt hqpos), ?_, ?_, ?_⟩
      · by_contra hcon
        have : q * s ≤ q * ((i - b) / q) := by nlinarith
        linarith
      · linarith
      · split_ifs <;> linarith
    · rintro ⟨r, hr0, hr1, hb, he⟩
      have : 0 ≤ q * r := by positivity
      constructor
      · linarith
      · split_ifs at he <;> linarith
  · intro r r' i hr0 hrr hr'
    show ¬ (b + q * r ≤ i ∧ i < (if b + q * (r + 1) < e then b + q * (r + 1) else e) ∧
      b + q * r' ≤ i ∧ i < (if b + q * (r' + 1) < e then b + q * (r' + 1) else e))
    rintro ⟨-, he, hb, -⟩
    have : q * (r + 1) ≤ q * r' := by nlinarith
    split_ifs at he <;> linarith
  · intro rank count
    rfl

/-- Witness of the amended C12: `N = 10` and team size 3 give `[0,4)`, `[4,8)`, `[8,10)`. -/
theorem team_thread_range_reconstruction_witness :
    ((0 : Int) ≤ 10 ∧ (1 : Int) ≤ 3) ∧
    (∃ q : Int, (10 - 0 ≤ q * 3 ∧ ∀ q', 10 - 0 ≤ q' * 3 → q ≤ q') ∧
    ∃ w : Int → TeamThreadRangeBoundariesStruct,
      (∀ rank, TeamThreadRangeBoundariesStruct.ofBeginEnd ⟨rank, 3⟩ 0 10 = some (w rank)) ∧
      (∀ rank, (w rank).start = 0 + q * rank ∧ (w rank).end = min 10 ((w rank).start + q)) ∧
      (∀ i, (0 ≤ i ∧ i < 10) ↔
        ∃ r, 0 ≤ r ∧ r < 3 ∧ (w r).start ≤ i ∧ i < (w r).end) ∧
      (∀ r r' i, 0 ≤ r → r < r' → r' < 3 →
        ¬ ((w r).start ≤ i ∧ i < (w r).end ∧ (w r').start ≤ i ∧ i < (w r').end)) ∧
      (∀ rank count, TeamThreadRangeBoundariesStruct.ofCount ⟨rank, 3⟩ count =
        TeamThreadRangeBoundariesStruct.ofBeginEnd ⟨rank, 3⟩ 0 count)) ∧
    TeamThreadRangeBoundariesStruct.ofCount ⟨0, 3⟩ 10 = some ⟨0, 4, ⟨0, 3⟩⟩ ∧
    TeamThreadRangeBoundariesStruct.ofCount ⟨1, 3⟩ 10 = some ⟨4, 8, ⟨1, 3⟩⟩ ∧
    TeamThreadRangeBoundariesStruct.ofCount ⟨2, 3⟩ 10 = some ⟨8, 10, ⟨2, 3⟩⟩ :=
  ⟨⟨by decide, by decide⟩,
   team_thread_range_reconstruction 0 10 3 (by decide) (by decide),
   by decide, by decide, by decide⟩

/-- C17: for every thread handle and every count the vector-range boundaries
are `start = 0`, `end = count`, `increment = 1`, whatever the handle's
`team_rank` and `team_size`. -/
theorem thread_vector_range_full (thread thread' : TeamMember) (count : Int) :
    (ThreadVectorRangeBoundariesStruct.ofCount thread count).start = 0 ∧
    (ThreadVectorRangeBoundariesStruct.ofCount thread count).end = count ∧
    (ThreadVectorRangeBoundariesStruct.ofCount thread count).increment = 1 ∧
    ThreadVectorRangeBoundariesStruct.ofCount thread count =
      ThreadVectorRangeBoundariesStruct.ofCount thread' count :=
  ⟨rfl, rfl, rfl, rfl⟩

/-! ## Scratch requests and team collectives -/

/-- C18 as stated fails in `size_t` arithmetic: with a 64-bit `size_t`,
`TeamScratchRequest(0, 2^63).total(2)` wraps around to 0, while
`per_team + per_thread * team_size` is `2^64`. -/
theorem scratch_total_wraps :
    ((0 : Nat) < 2 ^ 64 ∧ (2 : Nat) ^ 63 < 2 ^ 64 ∧ (2 : Nat) < 2 ^ 64) ∧
    TeamScratchRequest.total 64 (TeamScratchRequest.ofPerTeamPerThread 0 (2 ^ 63)) 2 = 0 ∧
    TeamScratchRequest.total 64 (TeamScratchRequest.ofPerTeamPerThread 0 (2 ^ 63)) 2
      ≠ 0 + 2 ^ 63 * 2 := by
  decide

/-- C18, amended: for a `size_t` of `bits` bits and a `size_t` value `per_team`
(below `2 ^ bits`), `per_team()` and `per_thread()` return the constructor
arguments, `total(team_size)` is `per_team + per_thread * team_size` modulo
`2 ^ bits`, which is the exact sum whenever that sum is below `2 ^ bits`; and
with `per_thread` omitted it is 0 and `total(team_size) = per_team`. -/
theorem scratch_total_modular (bits per_team per_thread team_size : Nat)
    (hteam : per_team < 2 ^ bits) :
    (TeamScratchRequest.ofPerTeamPerThread per_team per_thread).per_team = per_team ∧
    (TeamScratchRequest.ofPerTeamPerThread per_team per_thread).per_thread = per_thread ∧
    TeamScratchRequest.total bits (TeamScratchRequest.ofPerTeamPerThread per_team per_thread)
      team_size = (per_team + per_thread * team_size) % 2 ^ bits ∧
    (per_team + per_thread * team_size < 2 ^ bits →
      TeamScratchRequest.total bits
        (TeamScratchRequest.ofPerTeamPerThread per_team per_thread) team_size
        = per_team + per_thread * team_size) ∧
    (TeamScratchRequest.ofPerTeam per_team).per_team = per_team ∧
    (TeamScratchRequest.ofPerTeam per_team).per_thread = 0 ∧
    TeamScratchRequest.total bits (TeamScratchRequest.ofPerTeam per_team) team_size
      = per_team := by
  have hmod : TeamScratchRequest.total bits
      (TeamScratchRequest.ofPerTeamPerThread per_team per_thread) team_size
      = (per_team + per_thread * team_size) % 2 ^ bits := by
    simp [TeamScratchRequest.total, TeamScratchRequest.ofPerTeamPerThread, Nat.add_mod]
  refine ⟨rfl, rfl, hmod, fun h => ?_, rfl, rfl, ?_⟩
  · rw [hmod, Nat.mod_eq_of_lt h]
  · simp [TeamScratchRequest.total, TeamScratchRequest.ofPerTeam,
      TeamScratchRequest.ofPerTeamPerThread, Nat.mod_eq_of_lt hteam]

/-- Witness of the amended C18: a 64-bit `size_t`, 1024 bytes per team, 16 per
thread, team size 8. -/
theorem scratch_total_modular_witness :
    (1024 : Nat) < 2 ^ 64 ∧
    ((TeamScratchRequest.ofPerTeamPerThread 1024 16).per_team = 1024 ∧
    (TeamScratchRequest.ofPerTeamPerThread 1024 16).per_thread = 16 ∧
    TeamScratchRequest.total 64 (TeamScratchRequest.ofPerTeamPerThread 1024 16) 8
      = (1024 + 16 * 8) % 2 ^ 64 ∧
    (1024 + 16 * 8 < 2 ^ 64 →
      TeamScratchRequest.total 64 (TeamScratchRequest.ofPerTeamPerThread 1024 16) 8
        = 1024 + 16 * 8) ∧
    (TeamScratchRequest.ofPerTeam 1024).per_team = 1024 ∧
    (TeamScratchRequest.ofPerTeam 1024).per_thread = 0 ∧
    TeamScratchRequest.total 64 (TeamScratchRequest.ofPerTeam 1024) 8 = 1024) :=
  ⟨by decide, scratch_total_modular 64 1024 16 8 (by decide)⟩

/-- The scan started at `acc` hands rank `r` the value `acc` plus the sum of
the values of the ranks below `r`. -/
theorem team_scan_from_getElem (values : List Int) :
    ∀ (acc : Int) (r : Nat), r < values.length →
      (team_scan_from acc values)[r]? = some (acc + (values.take r).sum) := by
  induction values with
  | nil => intro acc r hr; simp at hr
  | cons v rest ih =>
    intro acc r hr
    cases r with
    | zero => simp [team_scan_from]
    | succ r =>
      have hr' : r < rest.length := by simpa using hr
      simp [team_scan_from, ih (acc + v) r hr', add_assoc]

theorem team_scan_from_length (values : List Int) :
    ∀ acc : Int, (team_scan_from acc values).length = values.length := by
  induction values with
  | nil => intro acc; rfl
  | cons v rest ih => intro acc; simp [team_scan_from, ih]

/-- C19: in a team whose ranks `0, 1, ...` contribute `values`, every rank gets
a result; rank `r` receives the sum of the values of ranks `0 .. r-1` (0 for
rank 0); the highest rank's result plus its own value is the team total; and
4 threads contributing 1 each receive 0, 1, 2, 3 with total 4. -/
theorem team_scan_exclusive_sum (values : List Int) :
    (team_scan values).length = values.length ∧
    (∀ r, r < values.length → (team_scan values)[r]? = some ((values.take r).sum)) ∧
    (∀ value, values[values.length - 1]? = some value →
      ∃ res, (team_scan values)[values.length - 1]? = some res ∧
        res + value = values.sum) ∧
    team_scan [1, 1, 1, 1] = [0, 1, 2, 3] ∧
    (team_scan [1, 1, 1, 1])[3]? = some 3 ∧ (3 : Int) + 1 = ([1, 1, 1, 1] : List Int).sum ∧
    ([1, 1, 1, 1] : List Int).sum = 4 := by
  have hget : ∀ r, r < values.length →
      (team_scan values)[r]? = some ((values.take r).sum) := by
    intro r hr
    rw [team_scan, team_scan_from_getElem values 0 r hr, zero_add]
  refine ⟨team_scan_from_length values 0, hget, ?_, by decide, by decide, by decide,
    by decide⟩
  intro value hvalue
  have hlen : values.length - 1 < values.length := by
    by_contra hcon
    rw [List.getElem?_eq_none (by omega)] at hvalue
    exact absurd hvalue (by simp)
  refine ⟨_, hget _ hlen, ?_⟩
  have hsplit := List.take_append_drop (values.length - 1) values
  have hdrop : values.drop (values.length - 1) = [value] := by
    rw [List.getElem?_eq_getElem hlen] at hvalue
    injection hvalue with hvalue
    rw [List.drop_eq_getElem_cons hlen, hvalue]
    have : values.length - 1 + 1 = values.length := by omega
    rw [this, List.drop_length]
  calc (values.take (values.length - 1)).sum + value
      = (values.take (values.length - 1) ++ [value]).sum := by simp
    _ = values.sum := by rw [← hdrop, hsplit]

/-- Witness of C19: ranks contributing 5, 7, 11; rank 2 receives 12 and the
highest rank recovers the total 23. -/
theorem team_scan_exclusive_sum_witness :
    ((2 : Nat) < ([5, 7, 11] : List Int).length ∧
      (team_scan [5, 7, 11])[2]? = some ((([5, 7, 11] : List Int).take 2).sum)) ∧
    (([5, 7, 11] : List Int)[([5, 7, 11] : List Int).length - 1]? = some 11 ∧
      ∃ res, (team_scan [5, 7, 11])[([5, 7, 11] : List Int).length - 1]? = some res ∧
        res + 11 = ([5, 7, 11] : List Int).sum) :=
  ⟨⟨by decide, (team_scan_exclusive_sum [5, 7, 11]).2.1 2 (by decide)⟩,
   ⟨by decide, (team_scan_exclusive_sum [5, 7, 11]).2.2.1 11 (by decide)⟩⟩

/-! ## Policy trait resolution -/

/-- One step of the resolution in terms of categories: the slot of the head's
category must be `void`, and receives the head's value. -/
theorem strip_off_eq (x : CxxType) (inner : PolicyTraitsVoid) :
    (match StripOff.select x with
      | none => none
      | some s => s.members x inner) =
    if inner.slot (category x) = none
    then some (inner.setSlot (category x) (suppliedValue x)) else none := by
  cases x <;> rfl

theorem resolve_void_cons (x : CxxType) (props : List CxxType) :
    PolicyTraitsVoid.resolve (x :: props) =
      match PolicyTraitsVoid.resolve props with
      | none => none
      | some inner =>
        if inner.slot (category x) = none
        then some (inner.setSlot (category x) (suppliedValue x)) else none := by
  rw [PolicyTraitsVoid.resolve]
  cases PolicyTraitsVoid.resolve props with
  | none => rfl
  | some inner => exact strip_off_eq x inner

theorem slot_setSlot (t : PolicyTraitsVoid) (c c' : Category) (v : CxxType) :
    (t.setSlot c v).slot c' = if c' = c then some v else t.slot c' := by
  cases c <;> cases c' <;> rfl

theorem supplied_cons (c : Category) (x : CxxType) (props : List CxxType) :
    supplied c (x :: props) =
      if category x = c then some (suppliedValue x) else supplied c props := by
  unfold supplied
  by_cases h : category x = c
  · simp [List.find?_cons, h]
  · simp [List.find?_cons, h]

theorem supplied_eq_none_iff (c : Category) (props : List CxxType) :
    supplied c props = none ↔ c ∉ props.map category := by
  unfold supplied
  simp [List.find?_eq_none]

/-- The resolution of `PolicyTraits<void, Props...>` fails exactly when a
category occurs twice, and otherwise each slot holds what the list supplies. -/
theorem resolve_void_spec (props : List CxxType) :
    match PolicyTraitsVoid.resolve props with
    | none => ¬ (props.map category).Nodup
    | some t => (props.map category).Nodup ∧ ∀ c, t.slot c = supplied c props := by
  induction props with
  | nil =>
    refine ⟨List.nodup_nil, fun c => ?_⟩
    cases c <;> rfl
  | cons x props ih =>
    rw [resolve_void_cons]
    cases hres : PolicyTraitsVoid.resolve props with
    | none =>
      rw [hres] at ih
      simp only [List.map_cons, List.nodup_cons]
      exact fun h => ih h.2
    | some inner =>
      rw [hres] at ih
      obtain ⟨hnodup, hslots⟩ := ih
      by_cases hslot : inner.slot (category x) = none
      · simp only [hslot, if_true]
        have hnot : category x ∉ props.map category := by
          rw [← supplied_eq_none_iff, ← hslots]; exact hslot
        refine ⟨by simp only [List.map_cons, List.nodup_cons]; exact ⟨hnot, hnodup⟩,
          fun c => ?_⟩
        rw [slot_setSlot, supplied_cons, hslots c]
        by_cases hc : c = category x
        · rw [if_pos hc, if_pos hc.symm]
        · rw [if_neg hc, if_neg (fun h => hc h.symm)]
      · simp only [hslot, if_false]
        have hmem : category x ∈ props.map category := by
          by_contra hcon
          rw [← supplied_eq_none_iff, ← hslots] at hcon
          exact hslot hcon
        simp only [List.map_cons, List.nodup_cons]
        exact fun h => h.1 hmem

theorem resolve_void_isSome_iff (props : List CxxType) :
    (PolicyTraitsVoid.resolve props).isSome = true ↔ (props.map category).Nodup := by
  have h := resolve_void_spec props
  cases hres : PolicyTraitsVoid.resolve props with
  | none => rw [hres] at h; simpa using h
  | some t => rw [hres] at h; simpa using h.1

/-- The primary template in terms of what the list supplies. -/
theorem resolve_spec (D : CxxType) (sz : CxxType → CxxType) (props : List CxxType) :
    PolicyTraits.resolve D sz props =
      if (props.map category).Nodup then
        some
          { execution_space := (supplied Category.ExecutionSpace props).getD D
            schedule_type := (supplied Category.Schedule props).getD CxxType.Static
            iteration_type := (supplied Category.IterationType props).getD
              (sz ((supplied Category.ExecutionSpace props).getD D))
            work_tag := supplied Category.WorkTag props }
      else none := by
  have h := resolve_void_spec props
  unfold PolicyTraits.resolve
  cases hres : PolicyTraitsVoid.resolve props with
  | none =>
    rw [hres] at h
    simp only [if_neg h]
  | some t =>
    rw [hres] at h
    obtain ⟨hnodup, hslots⟩ := h
    have h1 := hslots Category.ExecutionSpace
    have h2 := hslots Category.Schedule
    have h3 := hslots Category.IterationType
    have h4 := hslots Category.WorkTag
    simp only [PolicyTraitsVoid.slot] at h1 h2 h3 h4
    simp only [if_pos hnodup, h1, h2, h3, h4]
    cases supplied Category.ExecutionSpace props <;>
      cases supplied Category.Schedule props <;>
      cases supplied Category.IterationType props <;> rfl

/-- In a list without a repeated category, an item's category is supplied by
that item. -/
theorem supplied_of_mem (props : List CxxType) (hnodup : (props.map category).Nodup)
    (x : CxxType) (hx : x ∈ props) : supplied (category x) props = some (suppliedValue x) := by
  induction props with
  | nil => simp at hx
  | cons y l ih =>
    simp only [List.map_cons, List.nodup_cons] at hnodup
    rw [supplied_cons]
    rcases List.mem_cons.1 hx with rfl | hmem
    · rw [if_pos rfl]
    · have hne : category y ≠ category x := by
        intro heq
        exact hnodup.1 (heq ▸ List.mem_map_of_mem category hmem)
      rw [if_neg hne]
      exact ih hnodup.2 hmem
theorem suppliedValue_of_space (x : CxxType) (h : category x = Category.ExecutionSpace) :
    suppliedValue x = x := by
  cases x <;> first
    | rfl
    | (exfalso; revert h
       simp [category, is_execution_space, is_schedule_type, is_iteration_type, is_integral])

theorem suppliedValue_of_tag (x : CxxType) (h : category x = Category.WorkTag) :
    suppliedValue x = x := by
  cases x <;> first
    | rfl
    | (exfalso; revert h
       simp [category, is_execution_space, is_schedule_type, is_iteration_type, is_integral])

theorem supplied_of_not_mem (c : Category) (props : List CxxType)
    (h : ∀ x ∈ props, category x ≠ c) : supplied c props = none := by
  rw [supplied_eq_none_iff]
  intro hmem
  obtain ⟨x, hx, hcx⟩ := List.mem_map.1 hmem
  exact h x hx hcx

/-- C13: a configuration list without a repeated category resolves; each
category present in the list gets the supplied value and each absent one its
default: the default execution space, `Static`, the size type of the resolved
execution space, no work tag.  The empty list and `[Schedule<Dynamic>]`
resolve as stated. -/
theorem policy_traits_defaults (D : CxxType) (sz : CxxType → CxxType) (props : List CxxType)
    (hdup : (props.map category).Nodup) :
    (∃ r, PolicyTraits.resolve D sz props = some r ∧
      (∀ x ∈ props, category x = Category.ExecutionSpace → r.execution_space = x) ∧
      ((∀ x ∈ props, category x ≠ Category.ExecutionSpace) → r.execution_space = D) ∧
      (∀ x ∈ props, category x = Category.Schedule → r.schedule_type = suppliedValue x) ∧
      ((∀ x ∈ props, category x ≠ Category.Schedule) → r.schedule_type = CxxType.Static) ∧
      (∀ x ∈ props, category x = Category.IterationType →
        r.iteration_type = suppliedValue x) ∧
      ((∀ x ∈ props, category x ≠ Category.IterationType) →
        r.iteration_type = sz r.execution_space) ∧
      (∀ x ∈ props, category x = Category.WorkTag → r.work_tag = some x) ∧
      ((∀ x ∈ props, category x ≠ Category.WorkTag) → r.work_tag = none)) ∧
    PolicyTraits.resolve D sz [] = some ⟨D, CxxType.Static, sz D, none⟩ ∧
    PolicyTraits.resolve D sz [CxxType.Schedule CxxType.Dynamic] =
      some ⟨D, CxxType.Dynamic, sz D, none⟩ := by
  refine ⟨⟨_, by rw [resolve_spec, if_pos hdup], ?_, ?_, ?_, ?_, ?_, ?_, ?_, ?_⟩, rfl, rfl⟩
  · intro x hx hc
    have := supplied_of_mem props hdup x hx
    rw [hc] at this
    simp only [this, Option.getD_some]
    exact suppliedValue_of_space x hc
  · intro h
    simp only [supplied_of_not_mem _ props h, Option.getD_none]
  · intro x hx hc
    have := supplied_of_mem props hdup x hx
    rw [hc] at this
    simp only [this, Option.getD_some]
  · intro h
    simp only [supplied_of_not_mem _ props h, Option.getD_none]
  · intro x hx hc
    have := supplied_of_mem props hdup x hx
    rw [hc] at this
    simp only [this, Option.getD_some]
  · intro h
    simp only [supplied_of_not_mem _ props h, Option.getD_none]
  · intro x hx hc
    have := supplied_of_mem props hdup x hx
    rw [hc] at this
    simp only [this]
    rw [suppliedValue_of_tag x hc]
  · intro h
    simp only [supplied_of_not_mem _ props h]

/-- Witness of C13: the list `[tag, long, space 5, Schedule<Dynamic>]`, which
has one item of each category, with default space `space 0` whose size type
is `integral 9`. -/
theorem policy_traits_defaults_witness :
    (([CxxType.other 3, CxxType.integral 1, CxxType.space 5,
        CxxType.Schedule CxxType.Dynamic].map category).Nodup) ∧
    (∃ r, PolicyTraits.resolve (CxxType.space 0) (fun _ => CxxType.integral 9)
        [CxxType.other 3, CxxType.integral 1, CxxType.space 5,
          CxxType.Schedule CxxType.Dynamic] = some r ∧
      (∀ x ∈ [CxxType.other 3, CxxType.integral 1, CxxType.space 5,
          CxxType.Schedule CxxType.Dynamic],
        category x = Category.ExecutionSpace → r.execution_space = x) ∧
      ((∀ x ∈ [CxxType.other 3, CxxType.integral 1, CxxType.space 5,
          CxxType.Schedule CxxType.Dynamic],
        category x ≠ Category.ExecutionSpace) → r.execution_space = CxxType.space 0) ∧
      (∀ x ∈ [CxxType.other 3, CxxType.integral 1, CxxType.space 5,
          CxxType.Schedule CxxType.Dynamic],
        category x = Category.Schedule → r.schedule_type = suppliedValue x) ∧
      ((∀ x ∈ [CxxType.other 3, CxxType.integral 1, CxxType.space 5,
          CxxType.Schedule CxxType.Dynamic],
        category x ≠ Category.Schedule) → r.schedule_type = CxxType.Static) ∧
      (∀ x ∈ [CxxType.other 3, CxxType.integral 1, CxxType.space 5,
          CxxType.Schedule CxxType.Dynamic],
        category x = Category.IterationType → r.iteration_type = suppliedValue x) ∧
      ((∀ x ∈ [CxxType.other 3, CxxType.integral 1, CxxType.space 5,
          CxxType.Schedule CxxType.Dynamic],
        category x ≠ Category.IterationType) →
        r.iteration_type = (fun _ => CxxType.integral 9) r.execution_space) ∧
      (∀ x ∈ [CxxType.other 3, CxxType.integral 1, CxxType.space 5,
          CxxType.Schedule CxxType.Dynamic],
        category x = Category.WorkTag → r.work_tag = some x) ∧
      ((∀ x ∈ [CxxType.other 3, CxxType.integral 1, CxxType.space 5,
          CxxType.Schedule CxxType.Dynamic],
        category x ≠ Category.WorkTag) → r.work_tag = none)) ∧
    PolicyTraits.resolve (CxxType.space 0) (fun _ => CxxType.integral 9)
        [CxxType.other 3, CxxType.integral 1, CxxType.space 5,
          CxxType.Schedule CxxType.Dynamic] =
      some ⟨CxxType.space 5, CxxType.Dynamic, CxxType.integral 1, some (CxxType.other 3)⟩ :=
  ⟨by decide,
   (policy_traits_defaults (CxxType.space 0) (fun _ => CxxType.integral 9)
      [CxxType.other 3, CxxType.integral 1, CxxType.space 5,
        CxxType.Schedule CxxType.Dynamic] (by decide)).1,
   by decide⟩

/-- C21: `call(view)` performs exactly one invocation, of `s_callback`, when
the value type is non-const and `s_callback` is set; exactly one, of
`s_const_callback`, when it is const and `s_const_callback` is set; and none
otherwise.  After `clear()` both callbacks are empty, `is_set()` is false and
`call` does nothing; after `set(f, g)`, `is_set()` is true iff `f` or `g` is
non-empty. -/
theorem view_hooks_dispatch {Callback : Type} (hooks : ViewHooks Callback) (view : View)
    (f g : Callback) (fun_ const_fun : Option Callback) :
    (view.value_type_is_const = false → hooks.s_callback = some f →
      hooks.call view = [⟨f, ⟨view⟩⟩]) ∧
    (view.value_type_is_const = true → hooks.s_const_callback = some g →
      hooks.call view = [⟨g, ⟨view⟩⟩]) ∧
    (view.value_type_is_const = false → hooks.s_callback = none → hooks.call view = []) ∧
    (view.value_type_is_const = true → hooks.s_const_callback = none →
      hooks.call view = []) ∧
    (hooks.clear.s_callback = none ∧ hooks.clear.s_const_callback = none ∧
      hooks.clear.is_set = false ∧ hooks.clear.call view = []) ∧
    ((hooks.set fun_ const_fun).s_callback = fun_ ∧
      (hooks.set fun_ const_fun).s_const_callback = const_fun ∧
      ((hooks.set fun_ const_fun).is_set = true ↔ (fun_ ≠ none ∨ const_fun ≠ none))) := by
  refine ⟨?_, ?_, ?_, ?_, ⟨rfl, rfl, rfl, ?_⟩, rfl, rfl, ?_⟩
  · intro hv hf
    simp [ViewHooks.call, ViewHooks.do_call, hv, hf]
  · intro hv hg
    simp [ViewHooks.call, ViewHooks.do_call_const, hv, hg]
  · intro hv hf
    simp [ViewHooks.call, ViewHooks.do_call, hv, hf]
  · intro hv hg
    simp [ViewHooks.call, ViewHooks.do_call_const, hv, hg]
  · cases hv : view.value_type_is_const <;>
      simp [ViewHooks.call, ViewHooks.do_call, ViewHooks.do_call_const, ViewHooks.clear, hv]
  · cases fun_ <;> cases const_fun <;> simp [ViewHooks.set, ViewHooks.is_set]

/-- Witness of C21: callbacks 1 and 2 are set; a non-const view reaches 1, a
const view reaches 2, and with only the const callback set a non-const view
reaches nothing. -/
theorem view_hooks_dispatch_witness :
    (((⟨false, 7⟩ : View).value_type_is_const = false ∧
        (⟨some 1, some 2⟩ : ViewHooks Nat).s_callback = some 1) ∧
      (⟨some 1, some 2⟩ : ViewHooks Nat).call ⟨false, 7⟩ = [⟨1, ⟨⟨false, 7⟩⟩⟩]) ∧
    (((⟨true, 8⟩ : View).value_type_is_const = true ∧
        (⟨some 1, some 2⟩ : ViewHooks Nat).s_const_callback = some 2) ∧
      (⟨some 1, some 2⟩ : ViewHooks Nat).call ⟨true, 8⟩ = [⟨2, ⟨⟨true, 8⟩⟩⟩]) ∧
    (((⟨false, 7⟩ : View).value_type_is_const = false ∧
        (⟨none, some 2⟩ : ViewHooks Nat).s_callback = none) ∧
      (⟨none, some 2⟩ : ViewHooks Nat).call ⟨false, 7⟩ = []) :=
  ⟨⟨⟨rfl, rfl⟩, (view_hooks_dispatch ⟨some 1, some 2⟩ ⟨false, 7⟩ 1 2 none none).1 rfl rfl⟩,
   ⟨⟨rfl, rfl⟩, (view_hooks_dispatch ⟨some 1, some 2⟩ ⟨true, 8⟩ 1 2 none none).2.1 rfl rfl⟩,
   ⟨⟨rfl, rfl⟩, (view_hooks_dispatch ⟨none, some 2⟩ ⟨false, 7⟩ 1 2 none none).2.2.1 rfl rfl⟩⟩

/-! ## Partitioning with an arbitrary granularity -/

theorem nat_ldiff_div_two (a m : Nat) : Nat.ldiff a m / 2 = Nat.ldiff (a / 2) (m / 2) := by
  apply Nat.eq_of_testBit_eq
  intro i
  rw [Nat.testBit_div_two, Nat.testBit_ldiff, Nat.testBit_ldiff, Nat.testBit_div_two,
    Nat.testBit_div_two]

/-- The bits of `a` are split between `a & ~m` and `a & m`. -/
theorem nat_ldiff_add_land : ∀ (a m : Nat), Nat.ldiff a m + (a &&& m) = a := by
  intro a
  induction a using Nat.strong_induction_on with
  | _ a ih =>
    intro m
    rcases Nat.eq_zero_or_pos a with h0 | hpos
    · subst h0
      have : Nat.ldiff 0 m = 0 := by
        apply Nat.eq_of_testBit_eq
        intro i
        simp [Nat.testBit_ldiff]
      simp [this]
    · have ih' := ih (a / 2) (by omega) (m / 2)
      rw [← nat_ldiff_div_two, ← Nat.and_div_two] at ih'
      have hL := Nat.testBit_ldiff a m 0
      have hA := Nat.testBit_and a m 0
      simp only [Nat.testBit_zero] at hL hA
      have hmod : Nat.ldiff a m % 2 + (a &&& m) % 2 = a % 2 := by
        rcases Nat.mod_two_eq_zero_or_one a with ha | ha <;>
        rcases Nat.mod_two_eq_zero_or_one m with hm | hm <;>
        rcases Nat.mod_two_eq_zero_or_one (Nat.ldiff a m) with hl | hl <;>
        rcases Nat.mod_two_eq_zero_or_one (a &&& m) with hn | hn <;>
        simp [ha, hm, hl, hn] at hL hA ⊢
      omega

/-- Clearing the bits of a mask `m ≥ 0` lowers `x ≥ 0` by at most `m`. -/
theorem int_land_not_ge (x m : Int) (hx : 0 ≤ x) (hm : 0 ≤ m) :
    x - m ≤ Int.land x (~~~ m) := by
  obtain ⟨a, rfl⟩ := Int.eq_ofNat_of_zero_le hx
  obtain ⟨b, rfl⟩ := Int.eq_ofNat_of_zero_le hm
  have h : Int.land (a : Int) (~~~ (b : Int)) = ((Nat.ldiff a b : Nat) : Int) := rfl
  rw [h]
  have h1 := nat_ldiff_add_land a b
  have h2 : a &&& b ≤ b := Nat.and_le_right
  omega

/-- A positive `work_part` with `work_part * count ≥ end - begin` partitions
the range. -/
theorem partition_of_work_part {Space : Type} (p : RangePolicy Space) (count wp : Int)
    (hlt : p.m_begin < p.m_end) (hc : 1 ≤ count)
    (hwp : WorkRange.work_part p count = some wp) (hwppos : 0 < wp)
    (hcover : p.m_end - p.m_begin ≤ wp * count) :
    ∃ w : Int → WorkRange,
      (∀ rank, WorkRange.ofPolicy p rank count = some (w rank)) ∧
      (w 0).begin = p.begin ∧
      (w (count - 1)).end = p.end ∧
      (∀ r, 0 ≤ r → r < count - 1 → (w r).end = (w (r + 1)).begin) ∧
      (∀ r, 0 ≤ r → r < count → (w r).begin ≤ (w r).end) ∧
      (∀ i, (p.begin ≤ i ∧ i < p.end) ↔
        ∃ r, 0 ≤ r ∧ r < count ∧ (w r).begin ≤ i ∧ i < (w r).end) ∧
      (∀ r s i, 0 ≤ r → r < s → s < count →
        ¬ ((w r).begin ≤ i ∧ i < (w r).end ∧ (w s).begin ≤ i ∧ i < (w s).end)) := by
  refine ⟨fun rank =>
      ⟨if p.m_end < p.m_begin + wp * rank then p.m_end else p.m_begin + wp * rank,
       if p.m_end < p.m_begin + wp * rank + wp then p.m_end
       else p.m_begin + wp * rank + wp⟩,
    fun rank => ofPolicy_of_work_part p rank count wp (by omega) hwp, ?_, ?_, ?_, ?_, ?_, ?_⟩
  · simp [WorkRange.begin, RangePolicy.begin, le_of_lt hlt]
  · simp only [WorkRange.end, RangePolicy.end]
    have : wp * (count - 1) + wp = wp * count := by ring
    split_ifs with h
    · rfl
    · linarith
  · intro r _ _
    simp only [WorkRange.end, WorkRange.begin]
    have : wp * (r + 1) = wp * r + wp := by ring
    rw [this, ← add_assoc]
  · intro r _ _
    simp only [WorkRange.end, WorkRange.begin]
    split_ifs <;> linarith
  · intro i
    simp only [WorkRange.end, WorkRange.begin, RangePolicy.begin, RangePolicy.end]
    constructor
    · rintro ⟨hi1, hi2⟩
      have hr1 := Int.ediv_mul_le (i - p.m_begin) (ne_of_gt hwppos)
      have hr2 := Int.lt_ediv_add_one_mul_self (i - p.m_begin) hwppos
      refine ⟨(i - p.m_begin) / wp, Int.ediv_nonneg (by omega) (le_of_lt hwppos), ?_, ?_, ?_⟩
      · by_contra hcon
        have : wp * count ≤ wp * ((i - p.m_begin) / wp) := by nlinarith
        linarith
      · split_ifs <;> linarith
      · split_ifs <;> linarith
    · rintro ⟨r, hr0, hr1, hb, he⟩
      have : 0 ≤ wp * r := by positivity
      constructor
      · split_ifs at hb <;> linarith
      · split_ifs at he <;> linarith
  · intro r s i hr0 hrs hs
    simp only [WorkRange.end, WorkRange.begin]
    rintro ⟨-, he, hb, -⟩
    have : wp * r + wp ≤ wp * s := by nlinarith
    split_ifs at he hb <;> linarith

/-- C22, amended: over unbounded integers, for a policy with `begin < end`, any
granularity `g ≥ 1` with mask
`g - 1` (a power of two or not) and `count ≥ 1`, the rounded `work_part` is at
least `q = ceil((end - begin) / count)`, and the sub-ranges of ranks
`0 .. count-1` are contiguous, pairwise disjoint and cover exactly
`[begin(), end())`. -/
theorem workrange_partition_any_granularity {Space : Type} (p : RangePolicy Space)
    (count : Int) (hlt : p.begin < p.end) (hg : 1 ≤ p.m_granularity)
    (hmask : p.m_granularity_mask = p.m_granularity - 1) (hc : 1 ≤ count) :
    ∃ q wp : Int,
      (p.end - p.begin ≤ q * count ∧ ∀ q', p.end - p.begin ≤ q' * count → q ≤ q') ∧
      WorkRange.work_part p count = some wp ∧
      wp = Int.land (q + p.m_granularity_mask) (~~~ p.m_granularity_mask) ∧ q ≤ wp ∧
      ∃ w : Int → WorkRange,
        (∀ rank, WorkRange.ofPolicy p rank count = some (w rank)) ∧
        (w 0).begin = p.begin ∧
        (w (count - 1)).end = p.end ∧
        (∀ r, 0 ≤ r → r < count - 1 → (w r).end = (w (r + 1)).begin) ∧
        (∀ r, 0 ≤ r → r < count → (w r).begin ≤ (w r).end) ∧
        (∀ i, (p.begin ≤ i ∧ i < p.end) ↔
          ∃ r, 0 ≤ r ∧ r < count ∧ (w r).begin ≤ i ∧ i < (w r).end) ∧
        (∀ r s i, 0 ≤ r → r < s → s < count →
          ¬ ((w r).begin ≤ i ∧ i < (w r).end ∧ (w s).begin ≤ i ∧ i < (w s).end)) := by
  simp only [RangePolicy.begin, RangePolicy.end] at hlt
  obtain ⟨q, hq, hq0, hq1, hq2⟩ := cdiv_ceil (p.m_end - p.m_begin) count (by omega) hc
  have hwp : WorkRange.work_part p count
      = some (Int.land (q + p.m_granularity_mask) (~~~ p.m_granularity_mask)) := by
    simp [WorkRange.work_part, RangePolicy.begin, RangePolicy.end, hq]
  have hge := int_land_not_ge (q + p.m_granularity_mask) p.m_granularity_mask
    (by omega) (by omega)
  have hqle : q ≤ Int.land (q + p.m_granularity_mask) (~~~ p.m_granularity_mask) := by
    linarith
  have hqpos : 0 < q := by
    by_contra hcon
    have : q = 0 := by omega
    subst this
    omega
  refine ⟨q, _, ⟨hq1, ?_⟩, hwp, rfl, hqle, ?_⟩
  · intro q' hq'
    simp only [RangePolicy.begin, RangePolicy.end] at hq'
    by_contra hcon
    have : q' * count ≤ (q - 1) * count := by nlinarith
    linarith
  · refine partition_of_work_part p count _ hlt hc hwp (by omega) ?_
    have : q * count ≤
        Int.land (q + p.m_granularity_mask) (~~~ p.m_granularity_mask) * count := by
      nlinarith
    linarith

/-- Witness of the amended C22: the policy `(0, 10, ChunkSize(3))` split into 3 parts. -/
theorem workrange_partition_any_granularity_witness :
    (policyChunk3.begin < policyChunk3.end ∧ 1 ≤ policyChunk3.m_granularity ∧
      policyChunk3.m_granularity_mask = policyChunk3.m_granularity - 1 ∧ (1 : Int) ≤ 3) ∧
    ∃ q wp : Int,
      (policyChunk3.end - policyChunk3.begin ≤ q * 3 ∧
        ∀ q', policyChunk3.end - policyChunk3.begin ≤ q' * 3 → q ≤ q') ∧
      WorkRange.work_part policyChunk3 3 = some wp ∧
      wp = Int.land (q + policyChunk3.m_granularity_mask)
        (~~~ policyChunk3.m_granularity_mask) ∧ q ≤ wp ∧
      ∃ w : Int → WorkRange,
        (∀ rank, WorkRange.ofPolicy policyChunk3 rank 3 = some (w rank)) ∧
        (w 0).begin = policyChunk3.begin ∧
        (w (3 - 1)).end = policyChunk3.end ∧
        (∀ r, 0 ≤ r → r < 3 - 1 → (w r).end = (w (r + 1)).begin) ∧
        (∀ r, 0 ≤ r → r < 3 → (w r).begin ≤ (w r).end) ∧
        (∀ i, (policyChunk3.begin ≤ i ∧ i < policyChunk3.end) ↔
          ∃ r, 0 ≤ r ∧ r < 3 ∧ (w r).begin ≤ i ∧ i < (w r).end) ∧
        (∀ r s i, 0 ≤ r → r < s → s < 3 →
          ¬ ((w r).begin ≤ i ∧ i < (w r).end ∧ (w s).begin ≤ i ∧ i < (w s).end)) :=
  ⟨⟨by decide, by decide, by decide, by decide⟩,
   workrange_partition_any_granularity policyChunk3 3 (by decide) (by decide) (by decide)
     (by decide)⟩

/-! ## The auto sentinel used as a granularity -/

/-- C24, amended: over unbounded integers, for `begin ≤ end`, team size `s ≥ 1`,
any rank (in particular a rank in `0 .. s-1`) and `q = ceil((end - begin) / s)`,
the boundaries satisfy `start ≤ end` exactly when
`q * rank ≤ end - begin` and `start > end` otherwise; the number of indices
`i` with `start ≤ i < end` is at most `q`, and it does not grow with the
rank. -/
theorem team_thread_start_not_clamped (b e s rank : Int) (hle : b ≤ e) (hs : 1 ≤ s) :
    ∃ q : Int, (e - b ≤ q * s ∧ ∀ q', e - b ≤ q' * s → q ≤ q') ∧
    ∃ w, TeamThreadRangeBoundariesStruct.ofBeginEnd ⟨rank, s⟩ b e = some w ∧
      (w.start ≤ w.end ↔ q * rank ≤ e - b) ∧
      (¬ (q * rank ≤ e - b) → w.end < w.start) ∧
      ((Finset.Ico w.start w.end).card : Int) ≤ q ∧
      ∀ rank', rank ≤ rank' →
        ∃ w', TeamThreadRangeBoundariesStruct.ofBeginEnd ⟨rank', s⟩ b e = some w' ∧
          (Finset.Ico w'.start w'.end).card ≤ (Finset.Ico w.start w.end).card := by
  obtain ⟨q, hq0, hq1, hq2, hrun⟩ := team_thread_bounds b e s hle hs
  refine ⟨q, ⟨hq1, ?_⟩, _, hrun rank, ?_, ?_, ?_, ?_⟩
  · intro q' hq'
    by_contra hcon
    have : q' * s ≤ (q - 1) * s := by nlinarith
    linarith
  · show b + q * rank ≤ (if b + q * (rank + 1) < e then b + q * (rank + 1) else e) ↔
      q * rank ≤ e - b
    have : q * (rank + 1) = q * rank + q := by ring
    rw [this]
    constructor
    · intro h
      split_ifs at h <;> linarith
    · intro h
      split_ifs <;> linarith
  · intro h
    show (if b + q * (rank + 1) < e then b + q * (rank + 1) else e) < b + q * rank
    have : q * (rank + 1) = q * rank + q := by ring
    rw [this]
    split_ifs <;> linarith
  · rw [Int.card_Ico]
    show (((if b + q * (rank + 1) < e then b + q * (rank + 1) else e) -
      (b + q * rank)).toNat : Int) ≤ q
    have : q * (rank + 1) = q * rank + q := by ring
    rw [this]
    split_ifs with h
    · have : b + (q * rank + q) - (b + q * rank) = q := by ring
      rw [this, Int.toNat_of_nonneg hq0]
    · have hx : e - (b + q * rank) ≤ q := by linarith
      rcases le_total 0 (e - (b + q * rank)) with h0 | h0
      · rw [Int.toNat_of_nonneg h0]; exact hx
      · rw [Int.toNat_of_nonpos h0]; simpa using hq0
  · intro rank' hrr
    refine ⟨_, hrun rank', ?_⟩
    rw [Int.card_Ico, Int.card_Ico]
    show ((if b + q * (rank' + 1) < e then b + q * (rank' + 1) else e) -
        (b + q * rank')).toNat ≤
      ((if b + q * (rank + 1) < e then b + q * (rank + 1) else e) - (b + q * rank)).toNat
    have h1 : q * (rank + 1) = q * rank + q := by ring
    have h2 : q * (rank' + 1) = q * rank' + q := by ring
    have h3 : q * rank ≤ q * rank' := by nlinarith
    rw [h1, h2]
    apply Int.toNat_le_toNat
    split_ifs <;> linarith

/-- Witness of the amended C24: `begin = 0`, `end = 5`, team size 4, rank 3 give
`start = 6` and `end = 5`. -/
theorem team_thread_start_not_clamped_witness :
    ((0 : Int) ≤ 5 ∧ (1 : Int) ≤ 4) ∧
    (∃ q : Int, (5 - 0 ≤ q * 4 ∧ ∀ q', 5 - 0 ≤ q' * 4 → q ≤ q') ∧
    ∃ w, TeamThreadRangeBoundariesStruct.ofBeginEnd ⟨3, 4⟩ 0 5 = some w ∧
      (w.start ≤ w.end ↔ q * 3 ≤ 5 - 0) ∧
      (¬ (q * 3 ≤ 5 - 0) → w.end < w.start) ∧
      ((Finset.Ico w.start w.end).card : Int) ≤ q ∧
      ∀ rank', 3 ≤ rank' →
        ∃ w', TeamThreadRangeBoundariesStruct.ofBeginEnd ⟨rank', 4⟩ 0 5 = some w' ∧
          (Finset.Ico w'.start w'.end).card ≤ (Finset.Ico w.start w.end).card) ∧
    TeamThreadRangeBoundariesStruct.ofBeginEnd ⟨3, 4⟩ 0 5 = some ⟨6, 5, ⟨3, 4⟩⟩ :=
  ⟨⟨by decide, by decide⟩,
   team_thread_start_not_clamped 0 5 4 3 (by decide) (by decide),
   by decide⟩

/-! ## Termination of `set_chunk_size` and the size of the selected chunk -/

/-- With concurrency 0 and a non-empty range the guard of the first loop
holds at every iteration, whatever the fuel. -/
theorem loop100_diverges (len : Int) (hlen : 0 < len) :
    ∀ (fuel : Nat) (chunk : Int), RangePolicy.loop100 fuel 0 len chunk = none := by
  intro fuel
  induction fuel with
  | zero => intro chunk; rfl
  | succ fuel ih =>
    intro chunk
    rw [RangePolicy.loop100, if_pos (by simpa using hlen)]
    exact ih (chunk * 2)

/-- C25: for every policy and concurrency `≥ 1`, with enough fuel both loops
of `set_chunk_size` return and so does the function; and with concurrency 0,
granularity `≤ 0` and `begin < end` the first loop never returns, so neither
does the function, whatever the fuel. -/
theorem set_chunk_size_terminates {Space : Type} (p : RangePolicy Space) (c : Int) :
    (1 ≤ c → ∃ N, ∀ fuel, N ≤ fuel →
      (∃ r, RangePolicy.loop100 fuel c (p.m_end - p.m_begin) 1 = some r) ∧
      (∃ r, RangePolicy.loop40 fuel c (p.m_end - p.m_begin) 1 = some r) ∧
      ∃ q, RangePolicy.set_chunk_size fuel p c = some q) ∧
    (p.m_granularity ≤ 0 → p.m_begin < p.m_end → ∀ fuel,
      RangePolicy.loop100 fuel 0 (p.m_end - p.m_begin) 1 = none ∧
      RangePolicy.set_chunk_size fuel p 0 = none) := by
  constructor
  · intro hc
    obtain ⟨c1, -, hloop1⟩ := loop100_least c (p.m_end - p.m_begin) hc
    obtain ⟨k, -, hloop2⟩ := loop40_min c (p.m_end - p.m_begin) hc
    refine ⟨(p.m_end - p.m_begin).toNat + 1, fun fuel hfuel =>
      ⟨⟨_, hloop1 fuel hfuel⟩, ⟨_, hloop2 fuel hfuel⟩, ?_⟩⟩
    by_cases hg : 0 < p.m_granularity
    · exact ⟨p, by rw [RangePolicy.set_chunk_size, if_pos hg]⟩
    · obtain ⟨c1', k', -, -, hrun⟩ := set_chunk_size_auto p c (by omega) hc
      exact ⟨_, hrun fuel hfuel⟩
  · intro hg hlt fuel
    have hdiv := loop100_diverges (p.m_end - p.m_begin) (by omega) fuel 1
    refine ⟨hdiv, ?_⟩
    rw [RangePolicy.set_chunk_size, if_neg (by omega), RangePolicy.auto_chunk_size, hdiv]

/-- Witness of C25: the policy `(0, 10000, ChunkSize(AUTO))`, with concurrency
4 and with concurrency 0. -/
theorem set_chunk_size_terminates_witness :
    ((1 : Int) ≤ 4 ∧ ∃ N, ∀ fuel, N ≤ fuel →
      (∃ r, RangePolicy.loop100 fuel 4 (policyAuto.m_end - policyAuto.m_begin) 1 = some r) ∧
      (∃ r, RangePolicy.loop40 fuel 4 (policyAuto.m_end - policyAuto.m_begin) 1 = some r) ∧
      ∃ q, RangePolicy.set_chunk_size fuel policyAuto 4 = some q) ∧
    ((policyAuto.m_granularity ≤ 0 ∧ policyAuto.m_begin < policyAuto.m_end) ∧ ∀ fuel,
      RangePolicy.loop100 fuel 0 (policyAuto.m_end - policyAuto.m_begin) 1 = none ∧
      RangePolicy.set_chunk_size fuel policyAuto 0 = none) :=
  ⟨⟨by decide, (set_chunk_size_terminates policyAuto 4).1 (by decide)⟩,
   ⟨⟨by decide, by decide⟩,
    (set_chunk_size_terminates policyAuto 0).2 (by decide) (by decide)⟩⟩

/-- Half of a reference chunk size above 1 is too small for the 40x
threshold, and a reference chunk size above 128 is the result of the 100x
search. -/
theorem autoChunkOf_bounds (c len c1 k : Int) (hc : 1 ≤ c)
    (hc1 : IsLeastPow2 (fun x => len ≤ x * 100 * c) c1)
    (hk : IsLeastPow2 (fun x => len ≤ x * 40 * c) k) :
    (1 < autoChunkOf c1 k →
      autoChunkOf c1 k / 2 * 40 * c < len ∧ 20 * c * autoChunkOf c1 k < len) ∧
    (128 < autoChunkOf c1 k →
      autoChunkOf c1 k / 2 * 100 * c < len ∧ len ≤ autoChunkOf c1 k * 100 * c) := by
  obtain ⟨j, hj⟩ := autoChunkOf_pow2 _ _ c1 k hc1 hk
  have hhalf : 1 < autoChunkOf c1 k →
      ∃ i : Nat, autoChunkOf c1 k = 2 * 2 ^ i ∧ autoChunkOf c1 k / 2 = 2 ^ i := by
    intro h1
    rcases Nat.eq_zero_or_pos j with h0 | hpos
    · rw [hj, h0] at h1; simp at h1
    · refine ⟨j - 1, ?_, ?_⟩
      · rw [hj, ← pow_succ']
        congr 1
        omega
      · have : autoChunkOf c1 k = 2 * 2 ^ (j - 1) := by
          rw [hj, ← pow_succ']
          congr 1
          omega
        rw [this]
        simp
  have hcases : (128 ≤ c1 ∧ autoChunkOf c1 k = c1) ∨
      (c1 < 128 ∧ autoChunkOf c1 k ≤ 128 ∧ autoChunkOf c1 k ≤ k) := by
    unfold autoChunkOf
    by_cases h : 128 ≤ c1
    · left; exact ⟨h, by rw [if_pos h]⟩
    · right; rw [if_neg h]; exact ⟨by omega, min_le_left _ _, min_le_right _ _⟩
  constructor
  · intro h1
    obtain ⟨i, hi, hdiv⟩ := hhalf h1
    have hpos : (0 : Int) < 2 ^ i := by positivity
    have hnot : ¬ (len ≤ 2 ^ i * 40 * c) := by
      intro hP
      rcases hcases with ⟨-, hg⟩ | ⟨-, -, hgk⟩
      · have hP100 : len ≤ 2 ^ i * 100 * c := by nlinarith
        have := hc1.2.2 i hP100
        rw [← hg, hi] at this
        linarith
      · have := hk.2.2 i hP
        linarith
    rw [hdiv]
    constructor
    · linarith
    · rw [hi]
      have : 20 * c * (2 * 2 ^ i) = 2 ^ i * 40 * c := by ring
      rw [this]
      linarith
  · intro h128
    obtain ⟨i, hi, hdiv⟩ := hhalf (by linarith)
    rcases hcases with ⟨-, hg⟩ | ⟨-, hle, -⟩
    · have hnot : ¬ (len ≤ 2 ^ i * 100 * c) := by
        intro hP
        have := hc1.2.2 i hP
        have hpos : (0 : Int) < 2 ^ i := by positivity
        rw [← hg, hi] at this
        linarith
      rw [hdiv]
      refine ⟨by linarith, ?_⟩
      rw [hg]
      exact hc1.2.1
    · linarith

/-- C26, amended: over unbounded integers, for a policy with granularity `≤ 0`,
length `len = end - begin` and
concurrency `c ≥ 1`, with enough fuel `set_chunk_size` returns a policy whose
chunk size `g` satisfies: if `g > 1` then `(g / 2) * 40 * c < len`, that is
`20 * c * g < len`; and if `g > 128` then `(g / 2) * 100 * c < len ≤ g * 100 * c`. -/
theorem auto_chunk_enough_chunks {Space : Type} (p : RangePolicy Space) (c : Int)
    (hg : p.m_granularity ≤ 0) (hc : 1 ≤ c) :
    ∃ N, ∀ fuel, N ≤ fuel →
      ∃ q, RangePolicy.set_chunk_size fuel p c = some q ∧
        (1 < q.chunk_size →
          q.chunk_size / 2 * 40 * c < p.m_end - p.m_begin ∧
          20 * c * q.chunk_size < p.m_end - p.m_begin) ∧
        (128 < q.chunk_size →
          q.chunk_size / 2 * 100 * c < p.m_end - p.m_begin ∧
          p.m_end - p.m_begin ≤ q.chunk_size * 100 * c) := by
  obtain ⟨c1, k, hc1, hk, hrun⟩ := set_chunk_size_auto p c hg hc
  have hb := autoChunkOf_bounds c (p.m_end - p.m_begin) c1 k hc hc1 hk
  exact ⟨_, fun fuel hfuel => ⟨_, hrun fuel hfuel, hb.1, hb.2⟩⟩

/-- Witness of the amended C26: the policy `(0, 10000, ChunkSize(AUTO))` with concurrency
4, for which the selected chunk size is 64. -/
theorem auto_chunk_enough_chunks_witness :
    (policyAuto.m_granularity ≤ 0 ∧ (1 : Int) ≤ 4) ∧
    (∃ N, ∀ fuel, N ≤ fuel →
      ∃ q, RangePolicy.set_chunk_size fuel policyAuto 4 = some q ∧
        (1 < q.chunk_size →
          q.chunk_size / 2 * 40 * 4 < policyAuto.m_end - policyAuto.m_begin ∧
          20 * 4 * q.chunk_size < policyAuto.m_end - policyAuto.m_begin) ∧
        (128 < q.chunk_size →
          q.chunk_size / 2 * 100 * 4 < policyAuto.m_end - policyAuto.m_begin ∧
          policyAuto.m_end - policyAuto.m_begin ≤ q.chunk_size * 100 * 4)) ∧
    RangePolicy.set_chunk_size 20 policyAuto 4 =
      some { policyAuto with m_granularity := 64, m_granularity_mask := 63 } :=
  ⟨⟨by decide, by decide⟩,
   auto_chunk_enough_chunks policyAuto 4 (by decide) (by decide),
   by decide⟩

/-! ## Fixed-width arithmetic: where the unbounded statements stop -/

/-- More fuel does not change a result of the first loop. -/
theorem fixed_loop100_mono (T : IntegralType) (c len : Int) :
    ∀ (fuel : Nat) (x r : Int), Fixed.loop100 T fuel c len x = some r →
      ∀ fuel', fuel ≤ fuel' → Fixed.loop100 T fuel' c len x = some r := by
  intro fuel
  induction fuel with
  | zero => intro x r h; simp [Fixed.loop100] at h
  | succ fuel ih =>
    intro x r h fuel' hle
    obtain ⟨f, rfl⟩ : ∃ f, fuel' = f + 1 := ⟨fuel' - 1, by omega⟩
    rw [Fixed.loop100] at h ⊢
    split_ifs at h ⊢ with hc
    · exact ih _ r h f (by omega)
    · exact h

/-- More fuel does not change a result of the second loop. -/
theorem fixed_loop40_mono (T : IntegralType) (c len : Int) :
    ∀ (fuel : Nat) (x r : Int), Fixed.loop40 T fuel c len x = some r →
      ∀ fuel', fuel ≤ fuel' → Fixed.loop40 T fuel' c len x = some r := by
  intro fuel
  induction fuel with
  | zero => intro x r h; simp [Fixed.loop40] at h
  | succ fuel ih =>
    intro x r h fuel' hle
    obtain ⟨f, rfl⟩ : ∃ f, fuel' = f + 1 := ⟨fuel' - 1, by omega⟩
    rw [Fixed.loop40] at h ⊢
    split_ifs at h ⊢ with hc
    · exact ih _ r h f (by omega)
    · exact h

/-- More fuel does not change a result of `set_chunk_size`. -/
theorem fixed_set_chunk_size_mono {Space : Type} (T : IntegralType) (p q : RangePolicy Space)
    (c : Int) (fuel fuel' : Nat) (hle : fuel ≤ fuel')
    (h : Fixed.set_chunk_size T fuel p c = some q) :
    Fixed.set_chunk_size T fuel' p c = some q := by
  unfold Fixed.set_chunk_size at h ⊢
  split_ifs at h ⊢ with hg
  · exact h
  · have hauto : ∀ r, Fixed.auto_chunk_size T fuel c (T.sub p.m_end p.m_begin) = some r →
        Fixed.auto_chunk_size T fuel' c (T.sub p.m_end p.m_begin) = some r := by
      intro r hr
      unfold Fixed.auto_chunk_size at hr ⊢
      cases h1 : Fixed.loop100 T fuel c (T.sub p.m_end p.m_begin) (T.convert 1) with
      | none => rw [h1] at hr; simp at hr
      | some r1 =>
        rw [h1] at hr
        rw [fixed_loop100_mono T c _ fuel _ r1 h1 fuel' hle]
        simp only at hr ⊢
        split_ifs at hr ⊢ with h128
        · exact fixed_loop40_mono T c _ fuel _ r hr fuel' hle
        · exact hr
    cases h2 : Fixed.auto_chunk_size T fuel c (T.sub p.m_end p.m_begin) with
    | none => rw [h2] at h; simp at h
    | some r =>
      rw [h2] at h
      rw [hauto r h2]
      exact h

/-- C2 as stated fails in a fixed-width member type: for
`RangePolicy<unsigned>(0, 4294967295)` with the default granularity 8 and
`count = 1` the sum `ceil + mask` wraps around and `work_part` is 0, while no
`q` with `end - begin ≤ q * count` (so neither the ceiling) is `≤ 0`. -/
theorem fixed_work_part_wraps :
    (wideUnsigned.begin ≤ wideUnsigned.end ∧ wideUnsigned.m_granularity = 2 ^ 3 ∧
      wideUnsigned.m_granularity_mask = wideUnsigned.m_granularity - 1 ∧ (1 : Int) ≤ 1) ∧
    Fixed.work_part IntegralType.unsigned_int wideUnsigned 1 = some 0 ∧
    wideUnsigned.end - wideUnsigned.begin = 4294967295 ∧
    ¬ ∃ q : Int, wideUnsigned.end - wideUnsigned.begin ≤ q * 1 ∧ q ≤ 0 := by
  have hlen : wideUnsigned.end - wideUnsigned.begin = 4294967295 := by decide
  refine ⟨by decide, by decide, hlen, ?_⟩
  rintro ⟨q, h1, h2⟩
  rw [hlen] at h1
  omega

/-- C5 as stated fails in a fixed-width member type: for
`RangePolicy<unsigned>(50, 100)`, `count = 1` and rank 460175067 the product
`work_part * rank` wraps around and the sub-range is `[26, 82)`, which starts
below `begin() = 50`. -/
theorem fixed_workrange_below_begin :
    (smallUnsigned.begin ≤ smallUnsigned.end ∧ 1 ≤ smallUnsigned.m_granularity ∧
      smallUnsigned.m_granularity_mask = smallUnsigned.m_granularity - 1 ∧
      (1 : Int) ≤ 1 ∧ (0 : Int) ≤ 460175067) ∧
    Fixed.ofPolicy IntegralType.unsigned_int smallUnsigned 460175067 1 = some ⟨26, 82⟩ ∧
    smallUnsigned.begin = 50 ∧ ¬ (smallUnsigned.begin ≤ (26 : Int)) := by
  decide

set_option maxRecDepth 100000 in
/-- On `RangePolicy<unsigned>(0, 3200000000, ChunkSize(0))` with concurrency 3
the fixed-width search returns the chunk size `2 ^ 28`. -/
theorem fixed_set_chunk_32e8 :
    Fixed.set_chunk_size IntegralType.unsigned_int 40 zeroChunk32e8 3 =
      some { zeroChunk32e8 with m_granularity := 268435456
                                m_granularity_mask := 268435455 } := by
  decide

/-- C9 as stated fails in a fixed-width member type: on
`RangePolicy<unsigned>(0, 3200000000, ChunkSize(0))` with concurrency 3 the
products wrap around and `set_chunk_size` selects `2 ^ 28`, while the reference
chunk size, built from the least power of two `c1` with `len ≤ c1 * 100 * c`,
is at most `2 ^ 24`. -/
theorem fixed_auto_chunk_not_reference :
    (zeroChunk32e8.m_granularity ≤ 0 ∧ (1 : Int) ≤ 3) ∧
    (∀ fuel, 40 ≤ fuel →
      Fixed.set_chunk_size IntegralType.unsigned_int fuel zeroChunk32e8 3 =
        some { zeroChunk32e8 with m_granularity := 268435456
                                  m_granularity_mask := 268435455 }) ∧
    (∀ c1 k : Int,
      IsLeastPow2 (fun x => zeroChunk32e8.m_end - zeroChunk32e8.m_begin ≤ x * 100 * 3) c1 →
      IsLeastPow2 (fun x => zeroChunk32e8.m_end - zeroChunk32e8.m_begin ≤ x * 40 * 3) k →
      autoChunkOf c1 k ≤ 16777216 ∧ autoChunkOf c1 k ≠ 268435456) := by
  refine ⟨by decide, fun fuel hfuel =>
    fixed_set_chunk_size_mono _ _ _ _ 40 fuel hfuel fixed_set_chunk_32e8, ?_⟩
  intro c1 k hc1 hk
  have hle : c1 ≤ 2 ^ 24 := hc1.2.2 24 (by decide)
  have hbound : autoChunkOf c1 k ≤ 16777216 := by
    unfold autoChunkOf
    split_ifs
    · simpa using hle
    · exact le_trans (min_le_left _ _) (by decide)
  exact ⟨hbound, by omega⟩

/-- C12 as stated fails in a fixed-width index type: with `unsigned int`,
`count = 4294967295` and team size 2 the sum `arg_end + arg_size` wraps around,
both ranks get `[0, 0)`, and the index 0 of `[0, 4294967295)` is in neither. -/
theorem fixed_team_thread_range_empty :
    ((0 : Int) ≤ 4294967295 ∧ (1 : Int) ≤ 2) ∧
    Fixed.ofCount IntegralType.unsigned_int ⟨0, 2⟩ 4294967295 = some ⟨0, 0, ⟨0, 2⟩⟩ ∧
    Fixed.ofCount IntegralType.unsigned_int ⟨1, 2⟩ 4294967295 = some ⟨0, 0, ⟨1, 2⟩⟩ ∧
    Fixed.ofBeginEnd IntegralType.unsigned_int ⟨0, 2⟩ 0 4294967295 = some ⟨0, 0, ⟨0, 2⟩⟩ ∧
    Fixed.ofBeginEnd IntegralType.unsigned_int ⟨1, 2⟩ 0 4294967295 = some ⟨0, 0, ⟨1, 2⟩⟩ ∧
    ((0 : Int) ≤ 0 ∧ (0 : Int) < 4294967295) ∧ ¬ ((0 : Int) ≤ 0 ∧ (0 : Int) < 0) := by
  decide

/-- C22 as stated fails in a fixed-width member type: for
`RangePolicy<unsigned>(0, 4294967295)` with granularity 8 and `count = 1` the
only sub-range is `[0, 0)`, so the index 0 of the range is not covered. -/
theorem fixed_partition_not_covering :
    (wideUnsigned.begin < wideUnsigned.end ∧ 1 ≤ wideUnsigned.m_granularity ∧
      wideUnsigned.m_granularity_mask = wideUnsigned.m_granularity - 1 ∧ (1 : Int) ≤ 1) ∧
    Fixed.ofPolicy IntegralType.unsigned_int wideUnsigned 0 1 = some ⟨0, 0⟩ ∧
    (wideUnsigned.begin ≤ 0 ∧ 0 < wideUnsigned.end) ∧
    ¬ ((⟨0, 0⟩ : WorkRange).begin ≤ 0 ∧ 0 < (⟨0, 0⟩ : WorkRange).end) := by
  decide

/-- C24 as stated fails in a fixed-width index type: with `unsigned int`, range
`(0, 4294920001)`, team size 70000 and rank 69999 the numerator wraps around
and `start = end = 0`, so `start ≤ end`, although with the ceiling `q = 61357`
the product `q * rank` exceeds `end - begin`. -/
theorem fixed_team_thread_start_wraps :
    ((0 : Int) ≤ 4294920001 ∧ (1 : Int) ≤ 70000 ∧ (0 : Int) ≤ 69999 ∧
      (69999 : Int) < 70000) ∧
    Fixed.ofBeginEnd IntegralType.unsigned_int ⟨69999, 70000⟩ 0 4294920001 =
      some ⟨0, 0, ⟨69999, 70000⟩⟩ ∧
    ((4294920001 : Int) - 0 ≤ 61357 * 70000 ∧ (61357 - 1) * 70000 < (4294920001 : Int) - 0) ∧
    (0 : Int) ≤ 0 ∧ ¬ ((61357 : Int) * 69999 ≤ 4294920001 - 0) := by
  decide

/-- C26 as stated fails in a fixed-width member type: on
`RangePolicy<unsigned>(0, 3200000000, ChunkSize(0))` with concurrency 3 the
selected chunk size is `g = 2 ^ 28 > 128`, but `(g / 2) * 40 * c` is not below
the length, and neither is `(g / 2) * 100 * c`. -/
theorem fixed_auto_chunk_too_large :
    (zeroChunk32e8.m_granularity ≤ 0 ∧ (1 : Int) ≤ 3) ∧
    (∀ fuel, 40 ≤ fuel →
      ∃ q, Fixed.set_chunk_size IntegralType.unsigned_int fuel zeroChunk32e8 3 = some q ∧
        q.chunk_size = 268435456) ∧
    (128 : Int) < 268435456 ∧
    ¬ ((268435456 : Int) / 2 * 40 * 3 < zeroChunk32e8.m_end - zeroChunk32e8.m_begin) ∧
    ¬ ((268435456 : Int) / 2 * 100 * 3 < zeroChunk32e8.m_end - zeroChunk32e8.m_begin) := by
  refine ⟨by decide, fun fuel hfuel =>
    ⟨_, fixed_set_chunk_size_mono _ _ _ _ 40 fuel hfuel fixed_set_chunk_32e8, rfl⟩,
    by decide, by decide, by decide⟩

set_option maxRecDepth 100000 in
/-- On inputs whose results fit the type, the fixed-width definitions give the
values of the unbounded ones: `(0, 100)` split in 3 with granularity 8, the
team-thread range of 10 over 3 threads, and the auto chunk size 64 of
`(0, 10000, ChunkSize(AUTO))` with concurrency 4 in `long`. -/
theorem fixed_small_inputs :
    Fixed.ofPolicy IntegralType.unsigned_int
      (Fixed.ofRange IntegralType.unsigned_int 0 100 : RangePolicy Unit) 0 3 = some ⟨0, 40⟩ ∧
    Fixed.ofPolicy IntegralType.unsigned_int
      (Fixed.ofRange IntegralType.unsigned_int 0 100 : RangePolicy Unit) 1 3 = some ⟨40, 80⟩ ∧
    Fixed.ofPolicy IntegralType.unsigned_int
      (Fixed.ofRange IntegralType.unsigned_int 0 100 : RangePolicy Unit) 2 3 = some ⟨80, 100⟩ ∧
    Fixed.ofCount IntegralType.unsigned_int ⟨0, 3⟩ 10 = some ⟨0, 4, ⟨0, 3⟩⟩ ∧
    Fixed.ofCount IntegralType.unsigned_int ⟨1, 3⟩ 10 = some ⟨4, 8, ⟨1, 3⟩⟩ ∧
    Fixed.ofCount IntegralType.unsigned_int ⟨2, 3⟩ 10 = some ⟨8, 10, ⟨2, 3⟩⟩ ∧
    Fixed.set_chunk_size IntegralType.long 20
        (Fixed.ofRangeChunk IntegralType.long 0 10000 ChunkSize.ofAuto : RangePolicy Unit) 4 =
      some ⟨(), 0, 10000, 64, 63⟩ ∧
    RangePolicy.set_chunk_size 20 policyAuto 4 = some ⟨(), 0, 10000, 64, 63⟩ := by
  decide

end Kokkos
